import Mathlib

/-!
Verification of the miso core: the unified-diff parser (`internal/git/git.go`),
the pattern matcher (`internal/matcher/matcher.go`) and the guide resolver
(`internal/resolver/resolver.go`), shallowly embedded in Lean.

Text is modelled as `List Char` (Go strings/byte slices; the code only ever
compares and splits on ASCII bytes).  Go's standard-library string helpers
(`strings.Split`, `strings.TrimSpace`, `strings.TrimPrefix`, `strconv.Atoi`)
are embedded as executable Lean functions below, specialised to the separators
the source actually uses.  Regular-expression semantics are abstracted as an
oracle (`RegexSem`); a compiled regex is represented by the pattern string it
was compiled from, which is faithful because compilation is deterministic.
`math/rand` draws are an oracle `intn : Nat → Nat → Nat` (draw index, bound).
-/

/-- Go strings / byte slices, as lists of characters. -/
abbrev Str := List Char

/-- Embeds `strings.Split(s, sep)` for a one-character separator
(the source splits on "\n", " " and ","). -/
def split1 (c : Char) : Str → List Str
  | [] => [[]]
  | a :: rest =>
    if a = c then [] :: split1 c rest
    else
      match split1 c rest with
      | [] => [[a]]
      | p :: ps => (a :: p) :: ps

/-- Embeds `strings.Split(s, sep)` for a two-character separator
(the source splits hunk headers on "@@"). -/
def split2 (c1 c2 : Char) : Str → List Str
  | [] => [[]]
  | [a] => [[a]]
  | a :: b :: rest =>
    if a = c1 ∧ b = c2 then [] :: split2 c1 c2 rest
    else
      match split2 c1 c2 (b :: rest) with
      | [] => [[a]]
      | p :: ps => (a :: p) :: ps

/-- Embeds `strings.Contains(s, sub)` for a two-character `sub` ("@@"). -/
def contains2 (c1 c2 : Char) : Str → Bool
  | [] => false
  | [_] => false
  | a :: b :: rest => (a = c1 ∧ b = c2) ∨ contains2 c1 c2 (a :: b :: rest).tail

/-- Embeds `strings.Join(parts, "\n")`. -/
def joinNl : List Str → Str
  | [] => []
  | [x] => x
  | x :: y :: rest => x ++ '\n' :: joinNl (y :: rest)

/-- ASCII whitespace, as recognised by `unicode.IsSpace` on the byte range the
source ever feeds it (diff header lines). -/
def isSpaceGo (c : Char) : Bool :=
  c = ' ' ∨ c = '\t' ∨ c = '\n' ∨ c = '\x0b' ∨ c = '\x0c' ∨ c = '\r'

/-- Leading-whitespace half of `strings.TrimSpace`. -/
def trimLeftGo (s : Str) : Str := s.dropWhile isSpaceGo

/-- Trailing-whitespace half of `strings.TrimSpace`. -/
def trimRightGo (s : Str) : Str := (s.reverse.dropWhile isSpaceGo).reverse

/-- Embeds `strings.TrimSpace`. -/
def trimGo (s : Str) : Str := trimRightGo (trimLeftGo s)

/-- Embeds `strings.TrimPrefix(s, pre)`. -/
def trimPrefixGo (pre s : Str) : Str :=
  if pre.isPrefixOf s then s.drop pre.length else s

/-- Decimal value of a digit-character list (the accumulator loop inside
`strconv.Atoi`). -/
def digitsVal (l : Str) : Nat :=
  l.foldl (fun acc ch => acc * 10 + (ch.toNat - '0'.toNat)) 0

/-- Digit-string validation plus accumulation from `strconv.Atoi`
(parse fails on an empty string or any non-digit). -/
def decodeDigits (l : Str) : Option Nat :=
  if l ≠ [] ∧ l.all Char.isDigit then some (digitsVal l) else none

/-- Embeds `strconv.Atoi` = `ParseInt(s, 10, 64)`: optional leading sign,
then decimal digits; the parse fails (Go's `ErrRange`) when the value falls
outside the 64-bit `int` range, i.e. a non-negative value reaches 2^63 or a
negated magnitude exceeds 2^63. -/
def goAtoi (l : Str) : Option Int :=
  match l with
  | [] => none
  | c :: rest =>
    if c = '+' then
      (decodeDigits rest).bind (fun n => if n < 2 ^ 63 then some (n : Int) else none)
    else if c = '-' then
      (decodeDigits rest).bind (fun n => if n ≤ 2 ^ 63 then some (-(n : Int)) else none)
    else
      (decodeDigits (c :: rest)).bind (fun n => if n < 2 ^ 63 then some (n : Int) else none)

/-- `DiffLineType` from `internal/git/git.go`. -/
inductive DiffLineType where
  | added
  | removed
  | context
  | noNewline
  deriving DecidableEq, Repr

/-- `DiffLine` from `internal/git/git.go`; `oldNum`/`newNum` default to the Go
zero value 0 when the kind does not set them. -/
structure DiffLine where
  type : DiffLineType
  content : Str
  oldNum : Int
  newNum : Int
  deriving DecidableEq, Repr

/-- `DiffHunk` from `internal/git/git.go`. -/
structure DiffHunk where
  oldStart : Int
  oldCount : Int
  newStart : Int
  newCount : Int
  header : Str
  lines : List DiffLine
  deriving DecidableEq, Repr

/-- `DiffData` from `internal/git/git.go`. -/
structure DiffData where
  filePath : Str
  oldFilePath : Str
  newFilePath : Str
  isNew : Bool
  isDeleted : Bool
  isRenamed : Bool
  hunks : List DiffHunk
  deriving DecidableEq, Repr

/-- `parseRange` from `internal/git/git.go`: parses "1,4" or "1" into
(start, count), the count defaulting to 1 (the Go local `parts` is inlined). -/
def parseRange (rangeStr : Str) : Except Str (Int × Int) :=
  if rangeStr = [] then .ok (0, 0)
  else
    match goAtoi ((split1 ',' rangeStr).headD []) with
    | none => .error rangeStr
    | some start =>
      if (split1 ',' rangeStr).length > 1 then
        match goAtoi ((split1 ',' rangeStr).getD 1 []) with
        | none => .error rangeStr
        | some count => .ok (start, count)
      else .ok (start, 1)

/-- `parseHunkHeader` from `internal/git/git.go` (the Go function's locals
`original`, `parts`, `rangeStr`, `ranges`, `oldRange`, `newRange` are inlined;
`header` keeps the verbatim input line). -/
def parseHunkHeader (line : Str) : Except Str DiffHunk :=
  if ¬(("@@".data).isPrefixOf (trimGo line) ∧ contains2 '@' '@' (trimGo line)) then
    .error (trimGo line)
  else if (split2 '@' '@' (trimGo line)).length < 2 then .error (trimGo line)
  else if ¬((split1 ' ' (trimGo ((split2 '@' '@' (trimGo line)).getD 1 []))).length = 2) then
    .error (trimGo ((split2 '@' '@' (trimGo line)).getD 1 []))
  else
    match parseRange (trimPrefixGo ['-']
        ((split1 ' ' (trimGo ((split2 '@' '@' (trimGo line)).getD 1 []))).getD 0 [])) with
    | .error e => .error e
    | .ok (oldStart, oldCount) =>
      match parseRange (trimPrefixGo ['+']
          ((split1 ' ' (trimGo ((split2 '@' '@' (trimGo line)).getD 1 []))).getD 1 [])) with
      | .error e => .error e
      | .ok (newStart, newCount) =>
        .ok { oldStart := oldStart, oldCount := oldCount,
              newStart := newStart, newCount := newCount,
              header := line, lines := [] }

/-- Running state of the `ParseDiff` loop: the diff built so far, the open
hunk (if any) and the running old/new line counters. -/
structure PDState where
  diff : DiffData
  current : Option DiffHunk
  oldLineNum : Int
  newLineNum : Int
  deriving Repr

/-- Two's-complement wrap-around of Go's 64-bit `int` arithmetic: the unique
value congruent mod 2^64 that lies in [-2^63, 2^63 - 1]. -/
def wrap64 (n : Int) : Int := (n + 2 ^ 63) % 2 ^ 64 - 2 ^ 63

/-- Membership in the 64-bit `int` range [-2^63, 2^63 - 1]. -/
def inRange64 (n : Int) : Prop := -(2 ^ 63) ≤ n ∧ n ≤ 2 ^ 63 - 1

/-- One iteration of the `ParseDiff` loop body (for a line that is not the
skipped trailing empty line); the `++` on the line counters is Go's 64-bit
`int` increment, which wraps past 2^63 - 1. -/
def pdStep (st : PDState) (line : Str) : Except Str PDState :=
  if ("--- ".data).isPrefixOf line then
    let p := line.drop 4
    .ok { st with diff.oldFilePath := p,
                  diff.isNew := if p = "/dev/null".data then true else st.diff.isNew }
  else if ("+++ ".data).isPrefixOf line then
    let p := line.drop 4
    .ok { st with diff.newFilePath := p,
                  diff.isDeleted := if p = "/dev/null".data then true else st.diff.isDeleted }
  else if ("@@".data).isPrefixOf line then
    match parseHunkHeader line with
    | .error e => .error ("failed to parse hunk header: ".data ++ e)
    | .ok h =>
      .ok { diff := { st.diff with hunks :=
              match st.current with
              | some c => st.diff.hunks ++ [c]
              | none => st.diff.hunks },
            current := some h,
            oldLineNum := h.oldStart,
            newLineNum := h.newStart }
  else
    match st.current, line with
    | some c, ch :: rest =>
      if ch = '+' then
        .ok { st with
          current := some { c with lines := c.lines ++
            [{ type := .added, content := rest, oldNum := 0, newNum := st.newLineNum }] },
          newLineNum := wrap64 (st.newLineNum + 1) }
      else if ch = '-' then
        .ok { st with
          current := some { c with lines := c.lines ++
            [{ type := .removed, content := rest, oldNum := st.oldLineNum, newNum := 0 }] },
          oldLineNum := wrap64 (st.oldLineNum + 1) }
      else if ch = ' ' then
        .ok { st with
          current := some { c with lines := c.lines ++
            [{ type := .context, content := rest, oldNum := st.oldLineNum,
               newNum := st.newLineNum }] },
          oldLineNum := wrap64 (st.oldLineNum + 1), newLineNum := wrap64 (st.newLineNum + 1) }
      else if ch = '\\' then
        .ok { st with
          current := some { c with lines := c.lines ++
            [{ type := .noNewline, content := line, oldNum := 0, newNum := 0 }] } }
      else .ok st
    | _, _ => .ok st

/-- The `ParseDiff` loop over the split lines; the final line is skipped when
it is the empty string a trailing newline produces. -/
def pdRun (st : PDState) : List Str → Except Str PDState
  | [] => .ok st
  | [l] => if l = [] then .ok st else pdStep st l
  | l :: l2 :: ls =>
    match pdStep st l with
    | .error e => .error e
    | .ok st' => pdRun st' (l2 :: ls)

/-- `ParseDiff` from `internal/git/git.go`: split on newlines, run the loop
from the empty starting state, then append the still-open hunk if any. -/
def ParseDiff (diffText filePath : Str) : Except Str DiffData :=
  match pdRun
      { diff := { filePath := filePath, oldFilePath := [], newFilePath := [],
                  isNew := false, isDeleted := false, isRenamed := false, hunks := [] },
        current := none, oldLineNum := 0, newLineNum := 0 }
      (split1 '\n' diffText) with
  | .error e => .error e
  | .ok st =>
    match st.current with
    | some c => .ok { st.diff with hunks := st.diff.hunks ++ [c] }
    | none => .ok st.diff

/-- The `newLineNumber`s of a hunk's `Added` lines, in order. -/
def addedNewNums (h : DiffHunk) : List Int :=
  h.lines.filterMap (fun l => if l.type = .added then some l.newNum else none)

/-- The `oldLineNumber`s of a hunk's `Removed` lines, in order. -/
def removedOldNums (h : DiffHunk) : List Int :=
  h.lines.filterMap (fun l => if l.type = .removed then some l.oldNum else none)

/-- Line-number bookkeeping invariant of one hunk: added `newNum`s are
strictly increasing and stay at or above `newStart` (the counter they are
drawn from is seeded there), and symmetrically for removed `oldNum`s. -/
def hunkNumbersOk (h : DiffHunk) : Prop :=
  List.Chain' (· < ·) (addedNewNums h) ∧ (∀ n ∈ addedNewNums h, h.newStart ≤ n) ∧
  List.Chain' (· < ·) (removedOldNums h) ∧ (∀ n ∈ removedOldNums h, h.oldStart ≤ n)

/-- Number of lines of a hunk that advance the new-file counter
(`Added` and `Context` lines). -/
def numNewLines (h : DiffHunk) : Nat :=
  (h.lines.filter (fun l =>
    decide (l.type = DiffLineType.added ∨ l.type = DiffLineType.context))).length

/-- Number of lines of a hunk that advance the old-file counter
(`Removed` and `Context` lines). -/
def numOldLines (h : DiffHunk) : Nat :=
  (h.lines.filter (fun l =>
    decide (l.type = DiffLineType.removed ∨ l.type = DiffLineType.context))).length

/-- Line-number bookkeeping of one hunk, guarded against 64-bit counter
overflow: on each side, when the start value plus the number of lines that
advance that side's counter stays within the 64-bit `int` range (so the
counter never wraps while this hunk is open), the recorded line numbers are
strictly increasing and stay at or above the start value. -/
def hunkNumbersOkBounded (h : DiffHunk) : Prop :=
  (h.newStart + (numNewLines h : Int) ≤ 2 ^ 63 - 1 →
    List.Chain' (· < ·) (addedNewNums h) ∧ ∀ n ∈ addedNewNums h, h.newStart ≤ n) ∧
  (h.oldStart + (numOldLines h : Int) ≤ 2 ^ 63 - 1 →
    List.Chain' (· < ·) (removedOldNums h) ∧ ∀ n ∈ removedOldNums h, h.oldStart ≤ n)

/-- Decimal rendering loop of a natural number, most significant digit
first; the fuel argument only forces termination and is always sufficient. -/
def natStrAux : Nat → Nat → Str
  | 0, _ => []
  | fuel + 1, n =>
    if n < 10 then [Nat.digitChar n]
    else natStrAux fuel (n / 10) ++ [Nat.digitChar (n % 10)]

/-- Canonical decimal rendering of a natural number. -/
def natStr (n : Nat) : Str := natStrAux (n + 1) n

/-- One side of a conforming hunk-header range: `<start>` or `<start>,<count>`. -/
def rangePart (s : Nat) (cnt : Option Nat) : Str :=
  natStr s ++ (match cnt with | none => [] | some k => ',' :: natStr k)

/-- A hunk header conforming to the grammar
`@@ -<start>[,<count>] +<start>[,<count>] @@` (counts optional). -/
def mkHeader (a : Nat) (b : Option Nat) (c : Nat) (d : Option Nat) : Str :=
  "@@ -".data ++ rangePart a b ++ " +".data ++ rangePart c d ++ " @@".data

/-- Modelled from the spec: the hunk-header grammar
`@@ -<start>[,<count>] +<start>[,<count>] @@` as a predicate on lines
(each count defaults to 1 when its comma part is omitted). -/
def conformsHunkGrammar (line : Str) : Prop :=
  ∃ a b c d, line = mkHeader a b c d

/-- Modelled from the spec: conformance to the hunk-header grammar with every
numeral below 2^63, inside the range `strconv.Atoi` accepts for the unsigned
numerals the parser extracts (an omitted count is unconstrained: its
`Option.getD 0` reads 0). -/
def conformsHunkGrammar64 (line : Str) : Prop :=
  ∃ a b c d, a < 2 ^ 63 ∧ b.getD 0 < 2 ^ 63 ∧ c < 2 ^ 63 ∧ d.getD 0 < 2 ^ 63 ∧
    line = mkHeader a b c d

/-- `ContentDefaults` from `internal/config/types.go`. -/
structure ContentDefaults where
  strategy : Str
  lines : Int
  deriving DecidableEq, Repr

/-- `Pattern` from `internal/config/types.go`; an empty list embeds Go's
empty string / nil slice. -/
structure Pattern where
  name : Str
  filename : Str
  content : Str
  contentStrategy : Str
  contentLines : List Int
  context : List Str
  diffContext : List Str
  stop : Bool
  deriving DecidableEq, Repr

/-- `Config` from `internal/config/types.go`. -/
structure Config where
  contentDefaults : ContentDefaults
  patterns : List Pattern
  deriving DecidableEq, Repr

/-- Semantics oracle for Go's `regexp` package: `compileOk` says whether a
pattern string compiles, `rmatch pat s` whether the compiled form of `pat`
finds a match anywhere in `s` (`MatchString`/`Match`).  A compiled regex is
represented by its pattern string, valid because compilation is
deterministic. -/
structure RegexSem where
  compileOk : Str → Bool
  rmatch : Str → Str → Bool

/-- The matcher's `compiledRegexes` cache: key (rule name + kind suffix) to
the pattern string the cached regex was compiled from. -/
abbrev Cache := List (Str × Str)

/-- Go map lookup on the regex cache. -/
def findCache (key : Str) : Cache → Option Str
  | [] => none
  | (k, v) :: rest => if k = key then some v else findCache key rest

/-- Cache key for a rule's filename regex (`pattern.Name + "_filename"`). -/
def fkey (p : Pattern) : Str := p.name ++ "_filename".data

/-- Cache key for a rule's content regex (`pattern.Name + "_content"`). -/
def ckey (p : Pattern) : Str := p.name ++ "_content".data

/-- `getRegex` from `internal/matcher/matcher.go`: return the cached regex
for `key`, else compile `pat` and cache it. -/
def getRegex (R : RegexSem) (st : Cache) (key pat : Str) : Except Str (Str × Cache) :=
  match findCache key st with
  | some r => .ok (r, st)
  | none =>
    if R.compileOk pat then .ok (pat, (key, pat) :: st) else .error pat

/-- The rule loop of `Matcher.MatchFile`. -/
def MatchFileAux (R : RegexSem) (filename : Str) :
    List Pattern → Cache → Except Str (List Pattern × Cache)
  | [], st => .ok ([], st)
  | p :: ps, st =>
    if p.filename ≠ [] then
      match getRegex R st (fkey p) p.filename with
      | .error e => .error e
      | .ok (regex, st') =>
        if R.rmatch regex filename then
          if p.stop then .ok ([p], st')
          else
            match MatchFileAux R filename ps st' with
            | .error e => .error e
            | .ok (ms, st'') => .ok (p :: ms, st'')
        else MatchFileAux R filename ps st'
    else MatchFileAux R filename ps st

/-- `Matcher.MatchFile` from `internal/matcher/matcher.go`: filename-only
matching with early stop on a matched rule's `stop` flag. -/
def MatchFile (R : RegexSem) (cfg : Config) (filename : Str) (st : Cache) :
    Except Str (List Pattern × Cache) :=
  MatchFileAux R filename cfg.patterns st

/-- `getContentToScan` from `internal/matcher/matcher.go`, the rule's
effective sampling strategy applied to the content; `intn i n` is the value
of the i-th `rand.Intn(n)` draw of this invocation. -/
def getContentToScan (cfg : Config) (intn : Nat → Nat → Nat) (content : Str)
    (p : Pattern) : Str :=
  let strategy := if p.contentStrategy = [] then cfg.contentDefaults.strategy
                  else p.contentStrategy
  let lines := split1 '\n' content
  let totalLines : Int := lines.length
  if strategy = "full_file".data then content
  else if strategy = "smart".data then
    let counts : Int × Int × Int :=
      match p.contentLines with
      | [f, l, r] => (f, l, r)
      | _ => (100, 100, 100)
    let firstLines := counts.1
    let lastLines := counts.2.1
    let randomLines := counts.2.2
    let firstBlock := (List.range (min firstLines totalLines).toNat).map
      (fun i => lines.getD i [])
    let startLast := max (totalLines - lastLines) firstLines
    let tailBlock := (List.range (totalLines - startLast).toNat).map
      (fun (i : Nat) => lines.getD (startLast + (i : Int)).toNat [])
    let middleStart := firstLines
    let middleEnd := totalLines - lastLines
    let randBlock :=
      if totalLines > firstLines + lastLines then
        if middleStart < middleEnd then
          (List.range randomLines.toNat).map
            (fun i => lines.getD (middleStart + (intn i (middleEnd - middleStart).toNat : Int)).toNat [])
        else []
      else []
    joinNl (firstBlock ++ tailBlock ++ randBlock)
  else
    let linesToScan :=
      if p.contentStrategy = "first_lines".data ∧ p.contentLines ≠ [] then
        p.contentLines.headD 0
      else cfg.contentDefaults.lines
    if linesToScan > totalLines then content
    else joinNl (lines.take linesToScan.toNat)

/-- The second loop of `Matcher.MatchFileContent`: decide each rule with the
per-rule policy (`fnames` is the name set of the filename-stage matches),
stopping after a matched rule with `stop = true`. -/
def MatchFileContentAux (R : RegexSem) (cfg : Config) (intn : Nat → Nat → Nat)
    (content : Str) (fnames : List Str) :
    List Pattern → Cache → Except Str (List Pattern × Cache)
  | [], st => .ok ([], st)
  | p :: ps, st =>
    let step : Except Str (Bool × Cache) :=
      if p.filename ≠ [] ∧ p.content ≠ [] then
        if p.name ∈ fnames then
          let contentToScan := getContentToScan cfg intn content p
          match getRegex R st (ckey p) p.content with
          | .error e => .error e
          | .ok (regex, st') => .ok (R.rmatch regex contentToScan, st')
        else .ok (false, st)
      else if p.filename ≠ [] ∧ p.content = [] then
        .ok (p.name ∈ fnames, st)
      else if p.filename = [] ∧ p.content ≠ [] then
        let contentToScan := getContentToScan cfg intn content p
        match getRegex R st (ckey p) p.content with
        | .error e => .error e
        | .ok (regex, st') => .ok (R.rmatch regex contentToScan, st')
      else .ok (false, st)
    match step with
    | .error e => .error e
    | .ok (matched, st') =>
      if matched then
        if p.stop then .ok ([p], st')
        else
          match MatchFileContentAux R cfg intn content fnames ps st' with
          | .error e => .error e
          | .ok (ms, st'') => .ok (p :: ms, st'')
      else MatchFileContentAux R cfg intn content fnames ps st'

/-- `Matcher.MatchFileContent` from `internal/matcher/matcher.go`: compute the
filename-stage matches first, then evaluate every rule with the per-rule
policy. -/
def MatchFileContent (R : RegexSem) (cfg : Config) (intn : Nat → Nat → Nat)
    (filename content : Str) (st : Cache) : Except Str (List Pattern × Cache) :=
  match MatchFile R cfg filename st with
  | .error e => .error e
  | .ok (filenameMatches, st1) =>
    MatchFileContentAux R cfg intn content (filenameMatches.map (fun p => p.name))
      cfg.patterns st1

/-- Inner loop of `Matcher.GetMatchedGuides`: fold one rule's guide list into
the seen-set and the accumulated guide list. -/
def gmgInner : List Str → List Str → List Str → List Str × List Str
  | [], seen, guides => (seen, guides)
  | g :: gs, seen, guides =>
    if g ∈ seen then gmgInner gs seen guides
    else gmgInner gs (g :: seen) (guides ++ [g])

/-- The guide list a rule contributes: `diffContext` in diff mode when
non-empty, else `context`. -/
def pickGuides (isDiff : Bool) (p : Pattern) : List Str :=
  if isDiff ∧ p.diffContext ≠ [] then p.diffContext else p.context

/-- Outer loop of `Matcher.GetMatchedGuides` over the matched rules. -/
def gmgOuter (isDiff : Bool) : List Pattern → List Str → List Str → List Str
  | [], _, guides => guides
  | p :: ps, seen, guides =>
    let r := gmgInner (pickGuides isDiff p) seen guides
    gmgOuter isDiff ps r.1 r.2

/-- `Matcher.GetMatchedGuides` from `internal/matcher/matcher.go`. -/
def GetMatchedGuides (ps : List Pattern) (isDiff : Bool) : List Str :=
  gmgOuter isDiff ps [] []

/-- `Resolver.needsContentScan`: some matched rule carries a content
pattern. -/
def needsContentScan (ps : List Pattern) : Bool :=
  ps.any (fun p => !p.content.isEmpty)

/-- `Resolver.hasContentPatterns`: the config has a content-only rule
(empty filename pattern, non-empty content pattern). -/
def hasContentPatterns (cfg : Config) : Bool :=
  cfg.patterns.any (fun p => p.filename.isEmpty && !p.content.isEmpty)

/-- Resolver error taxonomy: a surfaced matcher/regex error, or the content
read failing (`os.ReadFile` error). -/
inductive RErr where
  | pattern (msg : Str)
  | read
  deriving DecidableEq, Repr

/-- `Resolver.GetGuides` from `internal/resolver/resolver.go`; `fs` is the
file-system oracle for `os.ReadFile` (`none` = read error).  The resolver is
modelled at the point of its first `GetGuides` call, so the matcher cache
starts empty. -/
def GetGuides (R : RegexSem) (cfg : Config) (intn : Nat → Nat → Nat)
    (fs : Str → Option Str) (filename : Str) : Except RErr (List Str) :=
  match MatchFile R cfg filename [] with
  | .error e => .error (.pattern e)
  | .ok (filenameMatches, st1) =>
    if filenameMatches.length > 0 ∧ ¬(needsContentScan filenameMatches = true) then
      .ok (GetMatchedGuides filenameMatches false)
    else if hasContentPatterns cfg then
      match fs filename with
      | none =>
        if filenameMatches.length > 0 then .ok (GetMatchedGuides filenameMatches false)
        else .error .read
      | some content =>
        match MatchFileContent R cfg intn filename content st1 with
        | .error e => .error (.pattern e)
        | .ok (contentMatches, _) => .ok (GetMatchedGuides contentMatches false)
    else .ok (GetMatchedGuides filenameMatches false)

/-- Literal substring search: whether `pat` occurs contiguously in `s`.  This
is exactly Go `regexp` matching restricted to metacharacter-free patterns, so
instantiating the oracle with it is realisable by the real code. -/
def litFind (pat : Str) : Str → Bool
  | [] => pat.isEmpty
  | a :: rest => pat.isPrefixOf (a :: rest) || litFind pat rest

/-- Regex oracle for concrete examples: every pattern compiles and matches as
a literal substring (true Go semantics for the literal patterns used). -/
def litSem : RegexSem :=
  { compileOk := fun _ => true, rmatch := fun pat s => litFind pat s }

/-- Regex oracle where the pattern "[" fails to compile (as it does in Go)
and every other pattern is matched literally. -/
def litSemBad : RegexSem :=
  { compileOk := fun pat => ¬(pat = "[".data), rmatch := fun pat s => litFind pat s }

/-- Deterministic stand-in for the `rand.Intn` oracle. -/
def noRand : Nat → Nat → Nat := fun _ _ => 0

/-- Modelled from the spec: first-seen-order deduplication — keep each
element's first occurrence, erase the later ones. -/
def dedupFS : List Str → List Str
  | [] => []
  | x :: xs => x :: dedupFS (xs.filter (fun y => y ≠ x))
termination_by l => l.length
decreasing_by
  exact Nat.lt_succ_of_le (List.length_filter_le _ _)

/-- Modelled from the spec: evaluate rules top to bottom, keep those
satisfying `f`, and halt right after a kept rule with `stop = true`. -/
def takeStop (f : Pattern → Bool) : List Pattern → List Pattern
  | [] => []
  | p :: ps =>
    if f p then (if p.stop then [p] else p :: takeStop f ps)
    else takeStop f ps

/-- Modelled from the spec: the filename-stage predicate — a non-empty
filename pattern that matches the filename. -/
def fnamePred (R : RegexSem) (filename : Str) (p : Pattern) : Bool :=
  !p.filename.isEmpty && R.rmatch p.filename filename

/-- Modelled from the spec: claim C2's per-rule matching policy, with the
filename pattern evaluated directly against the filename (both patterns must
match when both are present, otherwise the single present one must). -/
def ruleMatchesClaim (R : RegexSem) (cfg : Config) (intn : Nat → Nat → Nat)
    (filename content : Str) (p : Pattern) : Bool :=
  if p.filename ≠ [] ∧ p.content ≠ [] then
    R.rmatch p.filename filename &&
      R.rmatch p.content (getContentToScan cfg intn content p)
  else if p.filename ≠ [] then R.rmatch p.filename filename
  else if p.content ≠ [] then
    R.rmatch p.content (getContentToScan cfg intn content p)
  else false

/-- The per-rule policy the code actually implements: the filename side of a
rule holds iff the rule's name is among the filename-stage matches `fnames`
(computed with `MatchFile`'s early stop), not by re-testing the pattern. -/
def ruleMatchesCode (R : RegexSem) (cfg : Config) (intn : Nat → Nat → Nat)
    (content : Str) (fnames : List Str) (p : Pattern) : Bool :=
  if p.filename ≠ [] ∧ p.content ≠ [] then
    decide (p.name ∈ fnames) &&
      R.rmatch p.content (getContentToScan cfg intn content p)
  else if p.filename ≠ [] then decide (p.name ∈ fnames)
  else if p.content ≠ [] then
    R.rmatch p.content (getContentToScan cfg intn content p)
  else false

/-- Modelled from the spec: claim C1's full-file guide resolution — identical
to `GetGuides` except that the content read is gated on the rule set
containing *any* rule with a content pattern (content-only rules included),
as the claim words it, rather than only content-only rules. -/
def GetGuidesClaim (R : RegexSem) (cfg : Config) (intn : Nat → Nat → Nat)
    (fs : Str → Option Str) (filename : Str) : Except RErr (List Str) :=
  match MatchFile R cfg filename [] with
  | .error e => .error (.pattern e)
  | .ok (filenameMatches, st1) =>
    if filenameMatches.length > 0 ∧ ¬(needsContentScan filenameMatches = true) then
      .ok (GetMatchedGuides filenameMatches false)
    else if cfg.patterns.any (fun p => !p.content.isEmpty) then
      match fs filename with
      | none =>
        if filenameMatches.length > 0 then .ok (GetMatchedGuides filenameMatches false)
        else .error .read
      | some content =>
        match MatchFileContent R cfg intn filename content st1 with
        | .error e => .error (.pattern e)
        | .ok (contentMatches, _) => .ok (GetMatchedGuides contentMatches false)
    else .ok (GetMatchedGuides filenameMatches false)

/-- Invariant of the open hunk during the `ParseDiff` loop: the hunk's start
values are 64-bit representable, each running counter is the 64-bit wrap of
the hunk's start plus the number of lines consumed on that side, and — as
long as that sum has not left the 64-bit range — the recorded line numbers
are strictly increasing from the start value and stay below the counter. -/
def hunkOpenInv (c : DiffHunk) (oldN newN : Int) : Prop :=
  inRange64 c.newStart ∧ inRange64 c.oldStart ∧
  newN = wrap64 (c.newStart + (numNewLines c : Int)) ∧
  oldN = wrap64 (c.oldStart + (numOldLines c : Int)) ∧
  (c.newStart + (numNewLines c : Int) ≤ 2 ^ 63 - 1 →
    List.Chain' (· < ·) (addedNewNums c) ∧
    ∀ n ∈ addedNewNums c, c.newStart ≤ n ∧ n < c.newStart + (numNewLines c : Int)) ∧
  (c.oldStart + (numOldLines c : Int) ≤ 2 ^ 63 - 1 →
    List.Chain' (· < ·) (removedOldNums c) ∧
    ∀ n ∈ removedOldNums c, c.oldStart ≤ n ∧ n < c.oldStart + (numOldLines c : Int))

/-- Loop invariant of `ParseDiff`: every closed hunk satisfies the guarded
line-number invariant and the open hunk satisfies `hunkOpenInv` with the
running counters. -/
def pdInv (st : PDState) : Prop :=
  (∀ h ∈ st.diff.hunks, hunkNumbersOkBounded h) ∧
    (∀ c, st.current = some c → hunkOpenInv c st.oldLineNum st.newLineNum)

/-- Honest-cache invariant: every cached regex for one of the config's rules
is the regex of that rule's own pattern string. -/
def goodCache (cfg : Config) (st : Cache) : Prop :=
  ∀ p ∈ cfg.patterns,
    (findCache (fkey p) st = none ∨ findCache (fkey p) st = some p.filename) ∧
    (findCache (ckey p) st = none ∨ findCache (ckey p) st = some p.content)

/-- Shared content-scan defaults for the concrete example configurations. -/
def exDefaults : ContentDefaults := { strategy := "first_lines".data, lines := 50 }

/-- C2 example rule 1: both patterns, stop = true; its content pattern "z"
will not match the example content. -/
def c2r1 : Pattern :=
  { name := "r1".data, filename := "a".data, content := "z".data,
    contentStrategy := [], contentLines := [], context := ["g1".data],
    diffContext := [], stop := true }

/-- C2 example rule 2: filename-only rule whose pattern matches the example
filename. -/
def c2r2 : Pattern :=
  { name := "r2".data, filename := "a".data, content := [],
    contentStrategy := [], contentLines := [], context := ["g2".data],
    diffContext := [], stop := false }

/-- C2 example rule set. -/
def c2cfg : Config := { contentDefaults := exDefaults, patterns := [c2r1, c2r2] }

/-- C1/C9 example rule: both a filename and a content pattern. -/
def c1r : Pattern :=
  { name := "r".data, filename := "a".data, content := "z".data,
    contentStrategy := [], contentLines := [], context := ["g".data],
    diffContext := [], stop := false }

/-- C1 example rule set: one rule with both patterns, no content-only rule. -/
def c1cfg : Config := { contentDefaults := exDefaults, patterns := [c1r] }

/-- C9 example content-only rule. -/
def c9r2 : Pattern :=
  { name := "c".data, filename := [], content := "q".data,
    contentStrategy := [], contentLines := [], context := ["gc".data],
    diffContext := [], stop := false }

/-- C9 example rule set: a both-pattern rule plus a content-only rule, so
the resolver's content-read path is reachable. -/
def c9cfg : Config := { contentDefaults := exDefaults, patterns := [c1r, c9r2] }

/-- C10 example rule 1: filename pattern "a". -/
def c10r1 : Pattern :=
  { name := "n".data, filename := "a".data, content := [],
    contentStrategy := [], contentLines := [], context := ["g".data],
    diffContext := [], stop := false }

/-- C10 example rule 2: same name as rule 1 but with the invalid filename
pattern "[". -/
def c10r2 : Pattern :=
  { name := "n".data, filename := "[".data, content := [],
    contentStrategy := [], contentLines := [], context := ["h".data],
    diffContext := [], stop := false }

/-- C10 skipped-branch example rule 1: a filename pattern "x" that will not
match the example filename, plus a content pattern, under the name "n". -/
def c10r3 : Pattern :=
  { name := "n".data, filename := "x".data, content := "c1".data,
    contentStrategy := [], contentLines := [], context := ["g".data],
    diffContext := [], stop := false }

/-- C10 skipped-branch example rule 2: same name "n", content-only, carrying
the invalid content pattern "[". -/
def c10r4 : Pattern :=
  { name := "n".data, filename := [], content := "[".data,
    contentStrategy := [], contentLines := [], context := ["h".data],
    diffContext := [], stop := false }

/-- C10 skipped-branch example rule set with the invalid later pattern. -/
def c10cfgBad : Config := { contentDefaults := exDefaults, patterns := [c10r3, c10r4] }

/-- C10 skipped-branch example rule 2 variant with the valid content
pattern "q". -/
def c10r5 : Pattern :=
  { name := "n".data, filename := [], content := "q".data,
    contentStrategy := [], contentLines := [], context := ["h".data],
    diffContext := [], stop := false }

/-- C10 skipped-branch example rule set with the valid later pattern. -/
def c10cfgQ : Config := { contentDefaults := exDefaults, patterns := [c10r3, c10r5] }

/-- The hunk of the C3 round-trip example. -/
def c3exHunk : DiffHunk :=
  { oldStart := 1, oldCount := 3, newStart := 1, newCount := 3,
    header := "@@ -1,3 +1,3 @@".data,
    lines := [
      { type := .context, content := "a".data, oldNum := 1, newNum := 1 },
      { type := .removed, content := "b".data, oldNum := 2, newNum := 0 },
      { type := .added, content := "c".data, oldNum := 0, newNum := 2 },
      { type := .context, content := "d".data, oldNum := 3, newNum := 3 }] }

/-- The hunk `ParseDiff` builds from `@@ -1 +9223372036854775807,2 @@` over
two added lines: the new-file counter starts at the 64-bit maximum, so the
second added line's `newNum` has wrapped around to -2^63. -/
def c3wrapHunk : DiffHunk :=
  { oldStart := 1, oldCount := 1, newStart := 9223372036854775807, newCount := 2,
    header := "@@ -1 +9223372036854775807,2 @@".data,
    lines := [
      { type := .added, content := "x".data, oldNum := 0, newNum := 9223372036854775807 },
      { type := .added, content := "y".data, oldNum := 0, newNum := -9223372036854775808 }] }

theorem split1_ne_nil (c : Char) : ∀ s, split1 c s ≠ []
  | [] => by simp [split1]
  | a :: rest => by
    simp only [split1]
    split
    · simp
    · cases h : split1 c rest <;> simp

theorem split1_not_mem {c : Char} {s : Str} (h : c ∉ s) : split1 c s = [s] := by
  induction s with
  | nil => rfl
  | cons a rest ih =>
    have ha : ¬(a = c) := by rintro rfl; exact h (List.mem_cons_self _ _)
    have hr : c ∉ rest := fun hm => h (List.mem_cons_of_mem _ hm)
    simp only [split1, if_neg ha, ih hr]

theorem split1_append_cons {c : Char} {x : Str} (y : Str) (h : c ∉ x) :
    split1 c (x ++ c :: y) = x :: split1 c y := by
  induction x with
  | nil => simp [split1]
  | cons a x' ih =>
    have ha : ¬(a = c) := by rintro rfl; exact h (List.mem_cons_self _ _)
    have hr : c ∉ x' := fun hm => h (List.mem_cons_of_mem _ hm)
    show split1 c (a :: (x' ++ c :: y)) = (a :: x') :: split1 c y
    simp only [split1, if_neg ha]
    rw [ih hr]

theorem joinNl_split1 (s : Str) : joinNl (split1 '\n' s) = s := by
  induction s with
  | nil => rfl
  | cons a rest ih =>
    obtain ⟨p, ps, hp⟩ : ∃ p ps, split1 '\n' rest = p :: ps := by
      cases h : split1 '\n' rest with
      | nil => exact absurd h (split1_ne_nil _ _)
      | cons p ps => exact ⟨p, ps, rfl⟩
    by_cases ha : a = '\n'
    · subst ha
      have hs : split1 '\n' ('\n' :: rest) = [] :: p :: ps := by
        simp [split1, hp]
      rw [hs]
      show ([] : Str) ++ '\n' :: joinNl (p :: ps) = '\n' :: rest
      rw [List.nil_append, ← hp, ih]
    · rw [hp] at ih
      simp only [split1, if_neg ha, hp]
      cases ps with
      | nil => simpa [joinNl] using congrArg (a :: ·) ih
      | cons q qs => simpa [joinNl] using congrArg (a :: ·) ih

theorem split2_ne_nil (c1 c2 : Char) : ∀ s, split2 c1 c2 s ≠ []
  | [] => by simp [split2]
  | [_] => by simp [split2]
  | a :: b :: rest => by
    simp only [split2]
    split
    · simp
    · cases h : split2 c1 c2 (b :: rest) <;> simp

theorem split2_append {c1 c2 : Char} {x : Str} (y : Str) (h : c1 ∉ x) :
    split2 c1 c2 (x ++ c1 :: c2 :: y) = x :: split2 c1 c2 y := by
  induction x with
  | nil => simp [split2]
  | cons a x' ih =>
    have ha : ¬(a = c1) := by rintro rfl; exact h (List.mem_cons_self _ _)
    have hr : c1 ∉ x' := fun hm => h (List.mem_cons_of_mem _ hm)
    cases x' with
    | nil =>
      have hbase : split2 c1 c2 (c1 :: c2 :: y) = [] :: split2 c1 c2 y := by
        simp [split2]
      show split2 c1 c2 (a :: c1 :: c2 :: y) = [a] :: split2 c1 c2 y
      rw [show split2 c1 c2 (a :: c1 :: c2 :: y) =
          if a = c1 ∧ c1 = c2 then [] :: split2 c1 c2 (c2 :: y)
          else match split2 c1 c2 (c1 :: c2 :: y) with
            | [] => [[a]]
            | p :: ps => (a :: p) :: ps from rfl]
      rw [if_neg (by rintro ⟨rfl, -⟩; exact ha rfl), hbase]
    | cons a2 x'' =>
      simp only [List.cons_append] at ih ⊢
      rw [show split2 c1 c2 (a :: a2 :: (x'' ++ c1 :: c2 :: y)) =
          if a = c1 ∧ a2 = c2 then [] :: split2 c1 c2 (x'' ++ c1 :: c2 :: y)
          else match split2 c1 c2 (a2 :: (x'' ++ c1 :: c2 :: y)) with
            | [] => [[a]]
            | p :: ps => (a :: p) :: ps from rfl]
      rw [if_neg (by rintro ⟨rfl, -⟩; exact ha rfl), ih hr]

theorem trimLeftGo_cons_space (s : Str) : trimLeftGo (' ' :: s) = trimLeftGo s := by
  simp [trimLeftGo, List.dropWhile_cons, (by decide : isSpaceGo ' ' = true)]

theorem trimLeftGo_cons_no {a : Char} (s : Str) (h : isSpaceGo a = false) :
    trimLeftGo (a :: s) = a :: s := by
  simp [trimLeftGo, List.dropWhile_cons, h]

theorem trimRightGo_snoc_space (s : Str) : trimRightGo (s ++ [' ']) = trimRightGo s := by
  simp [trimRightGo, List.reverse_append, List.dropWhile_cons,
    (by decide : isSpaceGo ' ' = true)]

theorem trimRightGo_snoc_no {z : Char} (s : Str) (h : isSpaceGo z = false) :
    trimRightGo (s ++ [z]) = s ++ [z] := by
  simp [trimRightGo, List.reverse_append, List.dropWhile_cons, h]

theorem digitChar_isDigit {d : Nat} (h : d < 10) : (Nat.digitChar d).isDigit = true := by
  interval_cases d <;> decide

theorem digitChar_val {d : Nat} (h : d < 10) :
    (Nat.digitChar d).toNat - '0'.toNat = d := by
  interval_cases d <;> decide

theorem natStrAux_ne_nil {fuel n : Nat} (h : 0 < fuel) : natStrAux fuel n ≠ [] := by
  cases fuel with
  | zero => omega
  | succ f =>
    unfold natStrAux
    split
    · simp
    · simp

theorem natStr_ne_nil (n : Nat) : natStr n ≠ [] :=
  natStrAux_ne_nil (by omega)

theorem natStrAux_all_digit :
    ∀ (fuel n : Nat) {ch : Char}, ch ∈ natStrAux fuel n → ch.isDigit = true := by
  intro fuel
  induction fuel with
  | zero => intro n ch h; cases h
  | succ f ih =>
    intro n ch h
    unfold natStrAux at h
    split at h
    · rw [List.mem_singleton] at h
      subst h
      exact digitChar_isDigit (by omega)
    · rcases List.mem_append.mp h with h | h
      · exact ih _ h
      · rw [List.mem_singleton] at h
        subst h
        exact digitChar_isDigit (Nat.mod_lt _ (by omega))

theorem natStr_all_digit {n : Nat} {ch : Char} (h : ch ∈ natStr n) :
    ch.isDigit = true :=
  natStrAux_all_digit _ _ h

theorem isDigit_not_space {ch : Char} (h : ch.isDigit = true) : isSpaceGo ch = false := by
  simp only [isSpaceGo, decide_eq_false_iff_not]
  rintro (rfl | rfl | rfl | rfl | rfl | rfl) <;> exact absurd h (by decide)

theorem not_mem_natStr {n : Nat} {ch : Char} (h : ch.isDigit = false) :
    ch ∉ natStr n := fun hm => by
  rw [natStr_all_digit hm] at h
  cases h

theorem natStrAux_val :
    ∀ (fuel n : Nat), n < fuel → ∀ acc,
      List.foldl (fun acc ch => acc * 10 + (ch.toNat - '0'.toNat)) acc
        (natStrAux fuel n) = acc * 10 ^ (natStrAux fuel n).length + n := by
  intro fuel
  induction fuel with
  | zero => omega
  | succ f ih =>
    intro n hn acc
    by_cases h10 : n < 10
    · simp only [natStrAux, if_pos h10, List.foldl_cons, List.foldl_nil,
        List.length_singleton, pow_one]
      have := digitChar_val h10
      omega
    · have hdiv : n / 10 < f := by
        have h1 : n / 10 < n := Nat.div_lt_self (by omega) (by omega)
        omega
      have hmod := Nat.div_add_mod n 10
      unfold natStrAux
      rw [if_neg h10, List.foldl_append, ih _ hdiv acc]
      simp only [List.foldl_cons, List.foldl_nil, List.length_append,
        List.length_singleton, digitChar_val (Nat.mod_lt _ (show 0 < 10 by omega))]
      rw [pow_succ]
      ring_nf
      omega

theorem digitsVal_natStr (n : Nat) : digitsVal (natStr n) = n := by
  unfold digitsVal natStr
  rw [natStrAux_val (n + 1) n (by omega) 0]
  simp

theorem decodeDigits_natStr (n : Nat) : decodeDigits (natStr n) = some n := by
  unfold decodeDigits
  rw [if_pos ⟨natStr_ne_nil n, List.all_eq_true.mpr (fun ch hch => natStr_all_digit hch)⟩,
    digitsVal_natStr]

theorem goAtoi_natStr (n : Nat) (hn : n < 2 ^ 63) : goAtoi (natStr n) = some (n : Int) := by
  obtain ⟨ch, t, hct⟩ : ∃ ch t, natStr n = ch :: t := by
    cases h : natStr n with
    | nil => exact absurd h (natStr_ne_nil n)
    | cons ch t => exact ⟨ch, t, rfl⟩
  have hd : ch.isDigit = true := natStr_all_digit (hct ▸ List.mem_cons_self _ _)
  have h1 : ¬(ch = '+') := by rintro rfl; exact absurd hd (by decide)
  have h2 : ¬(ch = '-') := by rintro rfl; exact absurd hd (by decide)
  rw [hct]
  simp only [goAtoi, if_neg h1, if_neg h2, ← hct, decodeDigits_natStr]
  simp [hn]
  omega

theorem goAtoi_range {l : Str} {v : Int} (h : goAtoi l = some v) : inRange64 v := by
  unfold inRange64
  cases l with
  | nil => cases h
  | cons c rest =>
    unfold goAtoi at h
    dsimp only at h
    by_cases h1 : c = '+'
    · rw [if_pos h1] at h
      cases hd : decodeDigits rest with
      | none => rw [hd] at h; cases h
      | some n =>
        rw [hd] at h
        simp only [Option.some_bind] at h
        by_cases hr : n < 2 ^ 63
        · rw [if_pos hr] at h
          injection h with h
          omega
        · rw [if_neg hr] at h
          cases h
    · rw [if_neg h1] at h
      by_cases h2 : c = '-'
      · rw [if_pos h2] at h
        cases hd : decodeDigits rest with
        | none => rw [hd] at h; cases h
        | some n =>
          rw [hd] at h
          simp only [Option.some_bind] at h
          by_cases hr : n ≤ 2 ^ 63
          · rw [if_pos hr] at h
            injection h with h
            omega
          · rw [if_neg hr] at h
            cases h
      · rw [if_neg h2] at h
        cases hd : decodeDigits (c :: rest) with
        | none => rw [hd] at h; cases h
        | some n =>
          rw [hd] at h
          simp only [Option.some_bind] at h
          by_cases hr : n < 2 ^ 63
          · rw [if_pos hr] at h
            injection h with h
            omega
          · rw [if_neg hr] at h
            cases h

theorem split2_cons_sep (c1 c2 : Char) (y : Str) :
    split2 c1 c2 (c1 :: c2 :: y) = [] :: split2 c1 c2 y := by
  simp [split2]

theorem rangePart_ne_nil (s : Nat) (k : Option Nat) : rangePart s k ≠ [] := by
  unfold rangePart
  intro h
  exact natStr_ne_nil s (List.append_eq_nil.mp h).1

theorem rangePart_mem {s : Nat} {k : Option Nat} {ch : Char}
    (h : ch ∈ rangePart s k) : ch.isDigit = true ∨ ch = ',' := by
  unfold rangePart at h
  rcases List.mem_append.mp h with h | h
  · exact Or.inl (natStr_all_digit h)
  · cases k with
    | none => cases h
    | some k' =>
      rcases List.mem_cons.mp h with h | h
      · exact Or.inr h
      · exact Or.inl (natStr_all_digit h)

theorem rangePart_last (s : Nat) (k : Option Nat) :
    ∃ t z, rangePart s k = t ++ [z] ∧ z.isDigit = true := by
  cases k with
  | none =>
    rcases List.eq_nil_or_concat (natStr s) with h | ⟨t, z, h⟩
    · exact absurd h (natStr_ne_nil s)
    · refine ⟨t, z, by simp [rangePart, h], natStr_all_digit (n := s) ?_⟩
      rw [h, List.concat_eq_append]
      exact List.mem_append_right t (List.mem_singleton_self z)
  | some k' =>
    rcases List.eq_nil_or_concat (natStr k') with h | ⟨t, z, h⟩
    · exact absurd h (natStr_ne_nil k')
    · refine ⟨natStr s ++ ',' :: t, z, ?_, ?_⟩
      · simp [rangePart, h]
      · refine natStr_all_digit (n := k') ?_
        rw [h, List.concat_eq_append]
        exact List.mem_append_right t (List.mem_singleton_self z)

theorem parseRange_rangePart (a : Nat) (b : Option Nat) (ha : a < 2 ^ 63)
    (hb : b.getD 0 < 2 ^ 63) :
    parseRange (rangePart a b) = .ok ((a : Int), ((b.getD 1 : Nat) : Int)) := by
  unfold parseRange
  rw [if_neg (rangePart_ne_nil a b)]
  cases b with
  | none =>
    have hsplit : split1 ',' (rangePart a none) = [natStr a] := by
      unfold rangePart
      simp only [List.append_nil]
      exact split1_not_mem (not_mem_natStr (by decide))
    simp [hsplit, goAtoi_natStr a ha]
  | some k =>
    have hk : k < 2 ^ 63 := hb
    have hsplit : split1 ',' (rangePart a (some k)) = [natStr a, natStr k] := by
      unfold rangePart
      rw [split1_append_cons _ (not_mem_natStr (by decide)),
        split1_not_mem (not_mem_natStr (by decide))]
    simp [hsplit, goAtoi_natStr a ha, goAtoi_natStr k hk, List.getD]

theorem parseRange_range {r : Str} {s k : Int} (h : parseRange r = .ok (s, k)) :
    inRange64 s := by
  unfold parseRange at h
  by_cases hr : r = []
  · rw [if_pos hr] at h
    simp only [Except.ok.injEq, Prod.mk.injEq] at h
    rw [← h.1]
    unfold inRange64
    omega
  · rw [if_neg hr] at h
    cases hg : goAtoi ((split1 ',' r).headD []) with
    | none => rw [hg] at h; cases h
    | some start =>
      rw [hg] at h
      dsimp only at h
      have hs : start = s := by
        by_cases hl : (split1 ',' r).length > 1
        · rw [if_pos hl] at h
          cases hg2 : goAtoi ((split1 ',' r).getD 1 []) with
          | none => rw [hg2] at h; cases h
          | some count =>
            rw [hg2] at h
            dsimp only at h
            simp only [Except.ok.injEq, Prod.mk.injEq] at h
            exact h.1
        · rw [if_neg hl] at h
          simp only [Except.ok.injEq, Prod.mk.injEq] at h
          exact h.1
      rw [← hs]
      exact goAtoi_range hg

theorem mem_core {a : Nat} {b : Option Nat} {c : Nat} {d : Option Nat} {ch : Char}
    (h : ch ∈ '-' :: rangePart a b ++ ' ' :: '+' :: rangePart c d) :
    ch.isDigit = true ∨ ch = ',' ∨ ch = '-' ∨ ch = '+' ∨ ch = ' ' := by
  rcases List.mem_cons.mp h with h | h
  · exact Or.inr (Or.inr (Or.inl h))
  rcases List.mem_append.mp h with h | h
  · rcases rangePart_mem h with h | h
    · exact Or.inl h
    · exact Or.inr (Or.inl h)
  rcases List.mem_cons.mp h with h | h
  · exact Or.inr (Or.inr (Or.inr (Or.inr h)))
  rcases List.mem_cons.mp h with h | h
  · exact Or.inr (Or.inr (Or.inr (Or.inl h)))
  rcases rangePart_mem h with h | h
  · exact Or.inl h
  · exact Or.inr (Or.inl h)

theorem parseHunkHeader_mkHeader (a : Nat) (b : Option Nat) (c : Nat) (d : Option Nat)
    (ha : a < 2 ^ 63) (hb : b.getD 0 < 2 ^ 63) (hc2 : c < 2 ^ 63) (hd2 : d.getD 0 < 2 ^ 63) :
    parseHunkHeader (mkHeader a b c d) =
      .ok { oldStart := (a : Int), oldCount := ((b.getD 1 : Nat) : Int),
            newStart := (c : Int), newCount := ((d.getD 1 : Nat) : Int),
            header := mkHeader a b c d, lines := [] } := by
  obtain ⟨t, z, hrp, hz⟩ := rangePart_last c d
  set core : Str := '-' :: rangePart a b ++ ' ' :: '+' :: rangePart c d with hcore
  have hmk : mkHeader a b c d = '@' :: '@' :: ((' ' :: (core ++ [' '])) ++ ['@', '@']) := by
    simp [mkHeader, hcore]
  have hcore_snoc : core = ('-' :: rangePart a b ++ ' ' :: '+' :: t) ++ [z] := by
    rw [hcore, hrp]
    simp
  have htrim : trimGo (mkHeader a b c d) = mkHeader a b c d := by
    rw [hmk]
    unfold trimGo
    rw [trimLeftGo_cons_no _ (by decide)]
    rw [show '@' :: '@' :: ((' ' :: (core ++ [' '])) ++ ['@', '@']) =
        ('@' :: '@' :: ((' ' :: (core ++ [' '])) ++ ['@'])) ++ ['@'] by simp]
    rw [trimRightGo_snoc_no _ (by decide)]
  have hpre : ("@@".data).isPrefixOf (mkHeader a b c d) = true := by
    rw [hmk]
    simp [List.isPrefixOf]
  have hcon : contains2 '@' '@' (mkHeader a b c d) = true := by
    rw [hmk]
    simp [contains2]
  have hat : '@' ∉ (' ' :: (core ++ [' '])) := by
    intro hm
    rcases List.mem_cons.mp hm with hm | hm
    · exact absurd hm (by decide)
    rcases List.mem_append.mp hm with hm | hm
    · rcases mem_core (hcore ▸ hm) with h | h | h | h | h <;> simp_all
    · rcases List.mem_singleton.mp hm with hm
      exact absurd hm (by decide)
  have hmid : split2 '@' '@' (mkHeader a b c d) = [[], ' ' :: (core ++ [' ']), []] := by
    rw [hmk, split2_cons_sep, split2_append [] hat]
    rfl
  have hrs : trimGo (' ' :: (core ++ [' '])) = core := by
    unfold trimGo
    rw [trimLeftGo_cons_space]
    rw [show core ++ [' '] = '-' :: (rangePart a b ++ ' ' :: '+' :: rangePart c d ++ [' ']) by
      simp [hcore]]
    rw [trimLeftGo_cons_no _ (by decide)]
    rw [show '-' :: (rangePart a b ++ ' ' :: '+' :: rangePart c d ++ [' ']) = core ++ [' '] by
      simp [hcore]]
    rw [trimRightGo_snoc_space]
    rw [hcore_snoc, trimRightGo_snoc_no _ (isDigit_not_space hz)]
  have hsp1 : ' ' ∉ '-' :: rangePart a b := by
    intro hm
    rcases List.mem_cons.mp hm with hm | hm
    · exact absurd hm (by decide)
    · rcases rangePart_mem hm with h | h <;> simp_all
  have hsp2 : ' ' ∉ '+' :: rangePart c d := by
    intro hm
    rcases List.mem_cons.mp hm with hm | hm
    · exact absurd hm (by decide)
    · rcases rangePart_mem hm with h | h <;> simp_all
  have hranges : split1 ' ' core = ['-' :: rangePart a b, '+' :: rangePart c d] := by
    rw [show core = ('-' :: rangePart a b) ++ ' ' :: ('+' :: rangePart c d) by simp [hcore]]
    rw [split1_append_cons _ hsp1, split1_not_mem hsp2]
  have hold : trimPrefixGo ['-'] ('-' :: rangePart a b) = rangePart a b := by
    simp [trimPrefixGo, List.isPrefixOf]
  have hnew : trimPrefixGo ['+'] ('+' :: rangePart c d) = rangePart c d := by
    simp [trimPrefixGo, List.isPrefixOf]
  unfold parseHunkHeader
  rw [htrim]
  rw [if_neg (not_not_intro ⟨by rw [hpre], by rw [hcon]⟩)]
  rw [hmid]
  rw [if_neg (by norm_num)]
  rw [show ([[], ' ' :: (core ++ [' ']), []] : List Str).getD 1 [] = ' ' :: (core ++ [' ']) from rfl]
  rw [hrs]
  simp only [hranges, List.length_cons, List.length_nil, List.getD,
    List.get?_cons_zero, List.get?_cons_succ, List.getElem?_cons_succ,
    List.getElem?_cons_zero, Option.getD_some]
  rw [if_neg (by norm_num), hold, hnew, parseRange_rangePart a b ha hb,
    parseRange_rangePart c d hc2 hd2]

theorem parseHunkHeader_lines_nil {l : Str} {h : DiffHunk}
    (hp : parseHunkHeader l = .ok h) : h.lines = [] := by
  unfold parseHunkHeader at hp
  split at hp
  · cases hp
  split at hp
  · cases hp
  split at hp
  · cases hp
  split at hp
  · cases hp
  · split at hp
    · cases hp
    · injection hp with hp
      rw [← hp]

theorem parseHunkHeader_range {l : Str} {h : DiffHunk}
    (hp : parseHunkHeader l = .ok h) : inRange64 h.oldStart ∧ inRange64 h.newStart := by
  unfold parseHunkHeader at hp
  split at hp
  · cases hp
  split at hp
  · cases hp
  split at hp
  · cases hp
  split at hp
  · cases hp
  · split at hp
    · cases hp
    · injection hp with hp
      subst hp
      dsimp only
      exact ⟨parseRange_range (by assumption), parseRange_range (by assumption)⟩

theorem wrap64_eq_self {n : Int} (h : inRange64 n) : wrap64 n = n := by
  unfold wrap64
  unfold inRange64 at h
  omega

theorem wrap64_add_one (a : Int) : wrap64 (wrap64 a + 1) = wrap64 (a + 1) := by
  unfold wrap64
  omega

theorem wrap64_add_nat (s : Int) (k : Nat) :
    wrap64 (wrap64 (s + (k : Int)) + 1) = wrap64 (s + ((k + 1 : Nat) : Int)) := by
  unfold wrap64
  push_cast
  omega

theorem chain_lt_snoc {m : Int} :
    ∀ (l : List Int), List.Chain' (· < ·) l → (∀ n ∈ l, n < m) →
      List.Chain' (· < ·) (l ++ [m])
  | [], _, _ => by simp
  | [a], _, hb => by
    simp only [List.cons_append, List.nil_append, List.chain'_cons,
      List.chain'_singleton, and_true]
    exact hb a (List.mem_cons_self _ _)
  | a :: b :: t, hc, hb => by
    rw [List.cons_append, List.cons_append, List.chain'_cons, ← List.cons_append]
    exact ⟨(List.chain'_cons.mp hc).1,
      chain_lt_snoc (b :: t) (List.chain'_cons.mp hc).2
        (fun n hn => hb n (List.mem_cons_of_mem _ hn))⟩

theorem addedNewNums_snoc (c : DiffHunk) (dl : DiffLine) :
    addedNewNums { c with lines := c.lines ++ [dl] } =
      addedNewNums c ++ (if dl.type = .added then [dl.newNum] else []) := by
  unfold addedNewNums
  rw [List.filterMap_append]
  by_cases h : dl.type = .added <;> simp [List.filterMap_cons, h]

theorem removedOldNums_snoc (c : DiffHunk) (dl : DiffLine) :
    removedOldNums { c with lines := c.lines ++ [dl] } =
      removedOldNums c ++ (if dl.type = .removed then [dl.oldNum] else []) := by
  unfold removedOldNums
  rw [List.filterMap_append]
  by_cases h : dl.type = .removed <;> simp [List.filterMap_cons, h]

theorem numNewLines_snoc (c : DiffHunk) (dl : DiffLine) :
    numNewLines { c with lines := c.lines ++ [dl] } =
      numNewLines c +
        (if dl.type = DiffLineType.added ∨ dl.type = DiffLineType.context then 1 else 0) := by
  unfold numNewLines
  rw [List.filter_append, List.length_append]
  by_cases h : dl.type = DiffLineType.added ∨ dl.type = DiffLineType.context <;>
    simp [h]

theorem numOldLines_snoc (c : DiffHunk) (dl : DiffLine) :
    numOldLines { c with lines := c.lines ++ [dl] } =
      numOldLines c +
        (if dl.type = DiffLineType.removed ∨ dl.type = DiffLineType.context then 1 else 0) := by
  unfold numOldLines
  rw [List.filter_append, List.length_append]
  by_cases h : dl.type = DiffLineType.removed ∨ dl.type = DiffLineType.context <;>
    simp [h]

theorem pdStep_ok (st : PDState) (line : Str)
    (h : ("@@".data).isPrefixOf line = true → conformsHunkGrammar64 line) :
    ∃ st', pdStep st line = .ok st' := by
  unfold pdStep
  by_cases h1 : ("--- ".data).isPrefixOf line = true
  · rw [if_pos h1]; exact ⟨_, rfl⟩
  rw [if_neg h1]
  by_cases h2 : ("+++ ".data).isPrefixOf line = true
  · rw [if_pos h2]; exact ⟨_, rfl⟩
  rw [if_neg h2]
  by_cases h3 : ("@@".data).isPrefixOf line = true
  · rw [if_pos h3]
    obtain ⟨a, b, c, d, ha, hb, hc2, hd2, rfl⟩ := h h3
    rw [parseHunkHeader_mkHeader a b c d ha hb hc2 hd2]
    exact ⟨_, rfl⟩
  · rw [if_neg h3]
    repeat first
    | exact ⟨_, rfl⟩
    | split

theorem pdRun_ok {lines : List Str}
    (h : ∀ l ∈ lines, ("@@".data).isPrefixOf l = true → conformsHunkGrammar64 l) :
    ∀ st, ∃ st', pdRun st lines = .ok st' := by
  induction lines with
  | nil => exact fun st => ⟨st, rfl⟩
  | cons l ls ih =>
    intro st
    cases ls with
    | nil =>
      by_cases hl : l = []
      · exact ⟨st, by simp [pdRun, hl]⟩
      · obtain ⟨st', hst⟩ := pdStep_ok st l (h l (List.mem_cons_self _ _))
        exact ⟨st', by simp [pdRun, hl, hst]⟩
    | cons l2 ls2 =>
      obtain ⟨st1, hst⟩ := pdStep_ok st l (h l (List.mem_cons_self _ _))
      obtain ⟨st', hrun⟩ := ih (fun l' hl' => h l' (List.mem_cons_of_mem _ hl')) st1
      exact ⟨st', by simp [pdRun, hst, hrun]⟩

theorem openInv_add {c : DiffHunk} {oldN newN : Int} (h : hunkOpenInv c oldN newN) (r : Str) :
    hunkOpenInv { c with lines := c.lines ++
      [{ type := .added, content := r, oldNum := 0, newNum := newN }] }
      oldN (wrap64 (newN + 1)) := by
  obtain ⟨hrn, hro, hwn, hwo, hnewc, holdc⟩ := h
  have ha := addedNewNums_snoc c { type := .added, content := r, oldNum := 0, newNum := newN }
  have hr := removedOldNums_snoc c { type := .added, content := r, oldNum := 0, newNum := newN }
  have hn := numNewLines_snoc c { type := .added, content := r, oldNum := 0, newNum := newN }
  have ho := numOldLines_snoc c { type := .added, content := r, oldNum := 0, newNum := newN }
  simp only [reduceCtorEq, if_pos, if_neg, ite_true, ite_false, reduceIte, true_or,
    or_true, false_or, or_false, or_self, List.append_nil, Nat.add_zero] at ha hr hn ho
  unfold hunkOpenInv
  dsimp only
  refine ⟨hrn, hro, ?_, ?_, ?_, ?_⟩
  · rw [hn, hwn]
    exact wrap64_add_nat _ _
  · rw [ho]
    exact hwo
  · intro hb
    rw [hn] at hb
    rw [hn, ha]
    have hb' : c.newStart + (numNewLines c : Int) ≤ 2 ^ 63 - 1 := by
      push_cast at hb ⊢
      omega
    obtain ⟨hch, hbd⟩ := hnewc hb'
    have hinr : inRange64 (c.newStart + (numNewLines c : Int)) := by
      unfold inRange64 at hrn ⊢
      omega
    have hval : newN = c.newStart + (numNewLines c : Int) := by
      rw [hwn, wrap64_eq_self hinr]
    refine ⟨chain_lt_snoc _ hch ?_, ?_⟩
    · intro n hn2
      have h2 := (hbd n hn2).2
      omega
    · intro n hn2
      rcases List.mem_append.mp hn2 with hn2 | hn2
      · have h2 := hbd n hn2
        push_cast
        omega
      · rw [List.mem_singleton.mp hn2]
        push_cast
        omega
  · intro hb
    rw [ho] at hb
    rw [ho, hr]
    exact holdc hb

theorem openInv_rem {c : DiffHunk} {oldN newN : Int} (h : hunkOpenInv c oldN newN) (r : Str) :
    hunkOpenInv { c with lines := c.lines ++
      [{ type := .removed, content := r, oldNum := oldN, newNum := 0 }] }
      (wrap64 (oldN + 1)) newN := by
  obtain ⟨hrn, hro, hwn, hwo, hnewc, holdc⟩ := h
  have ha := addedNewNums_snoc c { type := .removed, content := r, oldNum := oldN, newNum := 0 }
  have hr := removedOldNums_snoc c { type := .removed, content := r, oldNum := oldN, newNum := 0 }
  have hn := numNewLines_snoc c { type := .removed, content := r, oldNum := oldN, newNum := 0 }
  have ho := numOldLines_snoc c { type := .removed, content := r, oldNum := oldN, newNum := 0 }
  simp only [reduceCtorEq, if_pos, if_neg, ite_true, ite_false, reduceIte, true_or,
    or_true, false_or, or_false, or_self, List.append_nil, Nat.add_zero] at ha hr hn ho
  unfold hunkOpenInv
  dsimp only
  refine ⟨hrn, hro, ?_, ?_, ?_, ?_⟩
  · rw [hn]
    exact hwn
  · rw [ho, hwo]
    exact wrap64_add_nat _ _
  · intro hb
    rw [hn] at hb
    rw [hn, ha]
    exact hnewc hb
  · intro hb
    rw [ho] at hb
    rw [ho, hr]
    have hb' : c.oldStart + (numOldLines c : Int) ≤ 2 ^ 63 - 1 := by
      push_cast at hb ⊢
      omega
    obtain ⟨hch, hbd⟩ := holdc hb'
    have hinr : inRange64 (c.oldStart + (numOldLines c : Int)) := by
      unfold inRange64 at hro ⊢
      omega
    have hval : oldN = c.oldStart + (numOldLines c : Int) := by
      rw [hwo, wrap64_eq_self hinr]
    refine ⟨chain_lt_snoc _ hch ?_, ?_⟩
    · intro n hn2
      have h2 := (hbd n hn2).2
      omega
    · intro n hn2
      rcases List.mem_append.mp hn2 with hn2 | hn2
      · have h2 := hbd n hn2
        push_cast
        omega
      · rw [List.mem_singleton.mp hn2]
        push_cast
        omega

theorem openInv_ctx {c : DiffHunk} {oldN newN : Int} (h : hunkOpenInv c oldN newN) (r : Str) :
    hunkOpenInv { c with lines := c.lines ++
      [{ type := .context, content := r, oldNum := oldN, newNum := newN }] }
      (wrap64 (oldN + 1)) (wrap64 (newN + 1)) := by
  obtain ⟨hrn, hro, hwn, hwo, hnewc, holdc⟩ := h
  have ha := addedNewNums_snoc c { type := .context, content := r, oldNum := oldN, newNum := newN }
  have hr := removedOldNums_snoc c { type := .context, content := r, oldNum := oldN, newNum := newN }
  have hn := numNewLines_snoc c { type := .context, content := r, oldNum := oldN, newNum := newN }
  have ho := numOldLines_snoc c { type := .context, content := r, oldNum := oldN, newNum := newN }
  simp only [reduceCtorEq, if_pos, if_neg, ite_true, ite_false, reduceIte, true_or,
    or_true, false_or, or_false, or_self, List.append_nil, Nat.add_zero] at ha hr hn ho
  unfold hunkOpenInv
  dsimp only
  refine ⟨hrn, hro, ?_, ?_, ?_, ?_⟩
  · rw [hn, hwn]
    exact wrap64_add_nat _ _
  · rw [ho, hwo]
    exact wrap64_add_nat _ _
  · intro hb
    rw [hn] at hb
    rw [hn, ha]
    have hb' : c.newStart + (numNewLines c : Int) ≤ 2 ^ 63 - 1 := by
      push_cast at hb ⊢
      omega
    obtain ⟨hch, hbd⟩ := hnewc hb'
    refine ⟨hch, ?_⟩
    intro n hn2
    have h2 := hbd n hn2
    push_cast
    omega
  · intro hb
    rw [ho] at hb
    rw [ho, hr]
    have hb' : c.oldStart + (numOldLines c : Int) ≤ 2 ^ 63 - 1 := by
      push_cast at hb ⊢
      omega
    obtain ⟨hch, hbd⟩ := holdc hb'
    refine ⟨hch, ?_⟩
    intro n hn2
    have h2 := hbd n hn2
    push_cast
    omega

theorem openInv_nonl {c : DiffHunk} {oldN newN : Int} (h : hunkOpenInv c oldN newN) (l : Str) :
    hunkOpenInv { c with lines := c.lines ++
      [{ type := .noNewline, content := l, oldNum := 0, newNum := 0 }] } oldN newN := by
  obtain ⟨hrn, hro, hwn, hwo, hnewc, holdc⟩ := h
  have ha := addedNewNums_snoc c { type := .noNewline, content := l, oldNum := 0, newNum := 0 }
  have hr := removedOldNums_snoc c { type := .noNewline, content := l, oldNum := 0, newNum := 0 }
  have hn := numNewLines_snoc c { type := .noNewline, content := l, oldNum := 0, newNum := 0 }
  have ho := numOldLines_snoc c { type := .noNewline, content := l, oldNum := 0, newNum := 0 }
  simp only [reduceCtorEq, if_pos, if_neg, ite_true, ite_false, reduceIte, true_or,
    or_true, false_or, or_false, or_self, List.append_nil, Nat.add_zero] at ha hr hn ho
  unfold hunkOpenInv
  dsimp only
  refine ⟨hrn, hro, ?_, ?_, ?_, ?_⟩
  · rw [hn]
    exact hwn
  · rw [ho]
    exact hwo
  · intro hb
    rw [hn] at hb
    rw [hn, ha]
    exact hnewc hb
  · intro hb
    rw [ho] at hb
    rw [ho, hr]
    exact holdc hb

theorem openInv_numbersOk {c : DiffHunk} {oldN newN : Int} (h : hunkOpenInv c oldN newN) :
    hunkNumbersOkBounded c := by
  obtain ⟨_, _, _, _, hnewc, holdc⟩ := h
  exact ⟨fun hb => ⟨(hnewc hb).1, fun n hn => ((hnewc hb).2 n hn).1⟩,
    fun hb => ⟨(holdc hb).1, fun n hn => ((holdc hb).2 n hn).1⟩⟩

theorem pdStep_inv {st st' : PDState} {line : Str} (hinv : pdInv st)
    (hstep : pdStep st line = .ok st') : pdInv st' := by
  obtain ⟨hcl, hop⟩ := hinv
  unfold pdStep at hstep
  split at hstep
  · injection hstep with hstep
    subst hstep
    exact ⟨hcl, hop⟩
  split at hstep
  · injection hstep with hstep
    subst hstep
    exact ⟨hcl, hop⟩
  split at hstep
  · split at hstep
    · cases hstep
    · next hdr hph =>
      injection hstep with hstep
      subst hstep
      refine ⟨?_, ?_⟩
      · show ∀ h ∈ (match st.current with
            | some c => st.diff.hunks ++ [c]
            | none => st.diff.hunks), hunkNumbersOkBounded h
        intro h hh
        cases hcu : st.current with
        | none =>
          rw [hcu] at hh
          exact hcl h hh
        | some c =>
          rw [hcu] at hh
          rcases List.mem_append.mp hh with hh | hh
          · exact hcl h hh
          · rw [List.mem_singleton.mp hh]
            exact openInv_numbersOk (hop c hcu)
      · show ∀ c0, some hdr = some c0 → hunkOpenInv c0 hdr.oldStart hdr.newStart
        intro c0 hc0
        injection hc0 with hc0
        subst hc0
        have hl := parseHunkHeader_lines_nil hph
        have hrg := parseHunkHeader_range hph
        have hne : numNewLines hdr = 0 := by unfold numNewLines; rw [hl]; rfl
        have hoe : numOldLines hdr = 0 := by unfold numOldLines; rw [hl]; rfl
        have hae : addedNewNums hdr = [] := by unfold addedNewNums; rw [hl]; rfl
        have hre : removedOldNums hdr = [] := by unfold removedOldNums; rw [hl]; rfl
        refine ⟨hrg.2, hrg.1, ?_, ?_, ?_, ?_⟩
        · rw [hne]
          norm_num [wrap64_eq_self hrg.2]
        · rw [hoe]
          norm_num [wrap64_eq_self hrg.1]
        · intro hb
          rw [hae]
          exact ⟨List.chain'_nil, fun n hn => absurd hn (List.not_mem_nil n)⟩
        · intro hb
          rw [hre]
          exact ⟨List.chain'_nil, fun n hn => absurd hn (List.not_mem_nil n)⟩
  · split at hstep
    · split at hstep
      · injection hstep with hstep
        subst hstep
        refine ⟨hcl, ?_⟩
        intro c0 hc0
        injection hc0 with hc0
        subst hc0
        exact openInv_add (hop _ (by assumption)) _
      split at hstep
      · injection hstep with hstep
        subst hstep
        refine ⟨hcl, ?_⟩
        intro c0 hc0
        injection hc0 with hc0
        subst hc0
        exact openInv_rem (hop _ (by assumption)) _
      split at hstep
      · injection hstep with hstep
        subst hstep
        refine ⟨hcl, ?_⟩
        intro c0 hc0
        injection hc0 with hc0
        subst hc0
        exact openInv_ctx (hop _ (by assumption)) _
      split at hstep
      · injection hstep with hstep
        subst hstep
        refine ⟨hcl, ?_⟩
        intro c0 hc0
        injection hc0 with hc0
        subst hc0
        exact openInv_nonl (hop _ (by assumption)) _
      · injection hstep with hstep
        subst hstep
        exact ⟨hcl, hop⟩
    · injection hstep with hstep
      subst hstep
      exact ⟨hcl, hop⟩

theorem pdRun_inv {lines : List Str} :
    ∀ {st st' : PDState}, pdInv st → pdRun st lines = .ok st' → pdInv st' := by
  induction lines with
  | nil =>
    intro st st' hinv h
    unfold pdRun at h
    injection h with h
    subst h
    exact hinv
  | cons l ls ih =>
    intro st st' hinv h
    cases ls with
    | nil =>
      unfold pdRun at h
      split at h
      · injection h with h
        subst h
        exact hinv
      · exact pdStep_inv hinv h
    | cons l2 ls2 =>
      unfold pdRun at h
      split at h
      · cases h
      · next st1 hst1 => exact ih (pdStep_inv hinv hst1) h

theorem mkHeader_big :
    mkHeader (2 ^ 63) none 1 none = "@@ -9223372036854775808 +1 @@".data := by
  simp [mkHeader, rangePart, natStr, natStrAux]
  decide

/-- Claim C6 counterexample: the valid hunk header `@@ -9223372036854775808 +1 @@`
(the form `@@ -a +c @@` at a = 2^63, c = 1) is rejected by `parseHunkHeader`
with an error instead of parsing to oldStart = 2^63: `strconv.Atoi` returns
an out-of-range error for the numeral 9223372036854775808 = 2^63, which does
not fit Go's 64-bit `int`. -/
theorem c6_counterexample :
    mkHeader (2 ^ 63) none 1 none = "@@ -9223372036854775808 +1 @@".data ∧
    parseHunkHeader (mkHeader (2 ^ 63) none 1 none) =
      .error ("9223372036854775808".data) := by
  refine ⟨mkHeader_big, ?_⟩
  rw [mkHeader_big]
  rfl

/-- Claim C6 (amended): for every valid hunk header line `@@ -a[,b] +c[,d] @@`
whose numerals are below 2^63 — i.e. inside the range `strconv.Atoi` accepts;
for larger numerals `Atoi` reports an out-of-range error and the header is
rejected, see the counterexample — the parsed hunk's `oldStart`, `oldCount`,
`newStart`, `newCount` equal a, b, c, d exactly, an omitted count defaults
to 1, and the `header` field holds the verbatim header line. -/
theorem c6_amended_hunk_header_values (a : Nat) (b : Option Nat) (c : Nat) (d : Option Nat)
    (ha : a < 2 ^ 63) (hb : b.getD 0 < 2 ^ 63) (hc2 : c < 2 ^ 63) (hd2 : d.getD 0 < 2 ^ 63) :
    parseHunkHeader (mkHeader a b c d) =
      .ok { oldStart := (a : Int), oldCount := ((b.getD 1 : Nat) : Int),
            newStart := (c : Int), newCount := ((d.getD 1 : Nat) : Int),
            header := mkHeader a b c d, lines := [] } :=
  parseHunkHeader_mkHeader a b c d ha hb hc2 hd2

/-- Claim C6 witness: the header `@@ -1,3 +2 @@` parses to oldStart 1,
oldCount 3, newStart 2, the omitted new count defaulting to 1, with the
verbatim header kept. -/
theorem c6_witness :
    parseHunkHeader (mkHeader 1 (some 3) 2 none) =
      .ok { oldStart := 1, oldCount := 3, newStart := 2, newCount := 1,
            header := mkHeader 1 (some 3) 2 none, lines := [] } :=
  c6_amended_hunk_header_values 1 (some 3) 2 none (by decide) (by decide)
    (by decide) (by decide)

/-- Claim C4 counterexample: the text "@@ 1 2 @@" consists of one line that
begins with "@@" and does not conform to the hunk-header grammar (it lacks
the '-' and '+' range markers), yet `ParseDiff` succeeds on it without a
`ParseError` — refuting the claimed "if and only if". -/
theorem c4_counterexample :
    (∃ d, ParseDiff ("@@ 1 2 @@".data) ("f".data) = .ok d) ∧
    (∃ l ∈ split1 '\n' ("@@ 1 2 @@".data),
      ("@@".data).isPrefixOf l = true ∧ ¬ conformsHunkGrammar l) := by
  refine ⟨⟨_, rfl⟩, "@@ 1 2 @@".data, by decide, by decide, ?_⟩
  rintro ⟨a, b, c, d, heq⟩
  have h3 := congrArg (fun l => l.getD 3 ' ') heq
  rw [show (fun (l : Str) => l.getD 3 ' ') ("@@ 1 2 @@".data) = '1' from rfl,
    show (fun (l : Str) => l.getD 3 ' ') (mkHeader a b c d) = '-' from rfl] at h3
  exact absurd h3 (by decide)

/-- Claim C4 (amended): `ParseDiff` succeeds whenever every line beginning
with "@@" conforms to the hunk-header grammar with all numerals below 2^63;
the original "if and only if" fails in both directions: the non-conforming
line "@@ 1 2 @@" is accepted without error (see the counterexample), and the
conforming line "@@ -9223372036854775808 +1 @@" is rejected with a
`ParseError`, because `strconv.Atoi` errors on numerals outside the 64-bit
`int` range. -/
theorem c4_amended_conforming_headers_ok :
    (∀ dt fp : Str,
      (∀ l ∈ split1 '\n' dt,
        ("@@".data).isPrefixOf l = true → conformsHunkGrammar64 l) →
      ∃ d, ParseDiff dt fp = .ok d) ∧
    (conformsHunkGrammar ("@@ -9223372036854775808 +1 @@".data) ∧
      ParseDiff ("@@ -9223372036854775808 +1 @@".data) ("f".data) =
        .error ("failed to parse hunk header: 9223372036854775808".data)) := by
  refine ⟨?_, ⟨2 ^ 63, none, 1, none, mkHeader_big.symm⟩, ?_⟩
  · intro dt fp h
    unfold ParseDiff
    obtain ⟨st', hrun⟩ := pdRun_ok h
      { diff := { filePath := fp, oldFilePath := [], newFilePath := [],
                  isNew := false, isDeleted := false, isRenamed := false, hunks := [] },
        current := none, oldLineNum := 0, newLineNum := 0 }
    rw [hrun]
    show ∃ d, (match st'.current with
      | some c => Except.ok { st'.diff with hunks := st'.diff.hunks ++ [c] }
      | none => Except.ok st'.diff) = Except.ok d
    cases hcu : st'.current with
    | none => exact ⟨_, rfl⟩
    | some c => exact ⟨_, rfl⟩
  · rfl

/-- Claim C4 witness: a concrete two-line diff whose "@@" line conforms to
the grammar with small numerals parses successfully, via the amended
theorem. -/
theorem c4_witness :
    ∃ d, ParseDiff ("@@ -1,3 +1,3 @@\n a".data) ("f".data) = .ok d := by
  refine c4_amended_conforming_headers_ok.1 _ _ ?_
  intro l hl hpre
  have hsplit : split1 '\n' ("@@ -1,3 +1,3 @@\n a".data) =
      ["@@ -1,3 +1,3 @@".data, " a".data] := by decide
  rw [hsplit] at hl
  rcases List.mem_cons.mp hl with h | h
  · exact ⟨1, some 3, 1, some 3, by decide, by decide, by decide, by decide,
      by rw [h]; decide⟩
  · have h2 := List.mem_singleton.mp h
    rw [h2] at hpre
    exact absurd hpre (by decide)

/-- Claim C3 counterexample: with the header `@@ -1 +9223372036854775807,2 @@`
the new-file counter is seeded at 2^63 - 1, the 64-bit `int` maximum, so
after the first added line Go's `int` increment wraps to -2^63: the two
added lines carry `newNum`s [2^63 - 1, -2^63], which are neither strictly
increasing nor at or above `newStart` — refuting the claimed invariant. -/
theorem c3_counterexample :
    ParseDiff ("@@ -1 +9223372036854775807,2 @@\n+x\n+y".data) ("f".data) =
      .ok { filePath := "f".data, oldFilePath := [], newFilePath := [],
            isNew := false, isDeleted := false, isRenamed := false,
            hunks := [c3wrapHunk] } ∧
    addedNewNums c3wrapHunk = [9223372036854775807, -9223372036854775808] ∧
    ¬ hunkNumbersOk c3wrapHunk := by
  refine ⟨rfl, rfl, ?_⟩
  intro hok
  have h1 := hok.1
  rw [show addedNewNums c3wrapHunk =
      [(9223372036854775807 : Int), -9223372036854775808] from rfl] at h1
  exact absurd (List.chain'_cons.mp h1).1 (by decide)

/-- Claim C3 (amended): in every hunk `ParseDiff` produces, provided the
relevant 64-bit counter cannot wrap while the hunk's lines are consumed (its
start value plus the number of that side's counter-advancing lines stays at
most 2^63 - 1; otherwise Go's `int` increment overflows, see the
counterexample), the `newNum`s of the Added lines are strictly increasing
and never fall below the hunk's `newStart`, and symmetrically the `oldNum`s
of the Removed lines with `oldStart`; and the hunk built from lines
[" a", "-b", "+c", " d"] with oldStart = newStart = 1 yields exactly
context(old=1,new=1), removed(old=2), added(new=2), context(old=3,new=3). -/
theorem c3_amended_line_numbers :
    (∀ dt fp d, ParseDiff dt fp = .ok d → ∀ h ∈ d.hunks, hunkNumbersOkBounded h) ∧
    ParseDiff ("@@ -1,3 +1,3 @@\n a\n-b\n+c\n d".data) ("f".data) =
      .ok { filePath := "f".data, oldFilePath := [], newFilePath := [],
            isNew := false, isDeleted := false, isRenamed := false,
            hunks := [c3exHunk] } := by
  constructor
  · intro dt fp d hd h hh
    unfold ParseDiff at hd
    split at hd
    · cases hd
    · next st hok =>
      have hinv : pdInv st :=
        pdRun_inv ⟨by intro h2 hh2; simp at hh2, fun c hc => Option.noConfusion hc⟩ hok
      split at hd
      · next c hcu =>
        injection hd with hd
        subst hd
        rcases List.mem_append.mp hh with hh | hh
        · exact hinv.1 h hh
        · rw [List.mem_singleton.mp hh]
          exact openInv_numbersOk (hinv.2 c hcu)
      · injection hd with hd
        subst hd
        exact hinv.1 h hh
  · rfl

/-- Claim C3 witness: the guarded invariant instantiated at the round-trip
example's hunk (whose counters stay far from 2^63), discharged through the
general theorem. -/
theorem c3_witness :
    List.Chain' (· < ·) (addedNewNums c3exHunk) ∧
    (∀ n ∈ addedNewNums c3exHunk, c3exHunk.newStart ≤ n) ∧
    List.Chain' (· < ·) (removedOldNums c3exHunk) ∧
    (∀ n ∈ removedOldNums c3exHunk, c3exHunk.oldStart ≤ n) := by
  have h := c3_amended_line_numbers.1 ("@@ -1,3 +1,3 @@\n a\n-b\n+c\n d".data) ("f".data)
    { filePath := "f".data, oldFilePath := [], newFilePath := [],
      isNew := false, isDeleted := false, isRenamed := false,
      hunks := [c3exHunk] }
    rfl c3exHunk (List.mem_singleton_self _)
  obtain ⟨h1, h2⟩ := h.1 (by decide)
  obtain ⟨h3, h4⟩ := h.2 (by decide)
  exact ⟨h1, h2, h3, h4⟩

theorem dedupFS_append_bounded :
    ∀ (n : Nat) (xs ys : List Str), xs.length ≤ n →
      dedupFS (xs ++ ys) = dedupFS xs ++ dedupFS (ys.filter (fun y => y ∉ xs)) := by
  intro n
  induction n with
  | zero =>
    intro xs ys h
    have hx : xs = [] := List.eq_nil_of_length_eq_zero (by omega)
    subst hx
    simp [dedupFS]
  | succ n ih =>
    intro xs ys h
    cases xs with
    | nil => simp [dedupFS]
    | cons x xs' =>
      have hlen : (xs'.filter (fun y => y ≠ x)).length ≤ n := by
        have := List.length_filter_le (fun y => decide (y ≠ x)) xs'
        simp only [List.length_cons] at h
        omega
      calc dedupFS (x :: xs' ++ ys)
          = x :: dedupFS ((xs' ++ ys).filter (fun y => y ≠ x)) := by
            rw [List.cons_append, dedupFS]
        _ = x :: dedupFS (xs'.filter (fun y => y ≠ x) ++ ys.filter (fun y => y ≠ x)) := by
            rw [List.filter_append]
        _ = x :: (dedupFS (xs'.filter (fun y => y ≠ x)) ++
              dedupFS ((ys.filter (fun y => y ≠ x)).filter
                (fun y => y ∉ xs'.filter (fun y => y ≠ x)))) := by
            rw [ih _ _ hlen]
        _ = x :: (dedupFS (xs'.filter (fun y => y ≠ x)) ++
              dedupFS (ys.filter (fun y => y ∉ x :: xs'))) := by
            have hf : (ys.filter (fun y => y ≠ x)).filter
                (fun y => y ∉ xs'.filter (fun y => y ≠ x)) =
                ys.filter (fun y => y ∉ x :: xs') := by
              rw [List.filter_filter]
              refine List.filter_congr ?_
              intro z hz
              by_cases h1 : z = x <;> by_cases h2 : z ∈ xs' <;>
                simp [h1, h2, List.mem_filter]
            rw [hf]
        _ = dedupFS (x :: xs') ++ dedupFS (ys.filter (fun y => y ∉ x :: xs')) := by
            rw [dedupFS]
            rfl

theorem dedupFS_append (xs ys : List Str) :
    dedupFS (xs ++ ys) = dedupFS xs ++ dedupFS (ys.filter (fun y => y ∉ xs)) :=
  dedupFS_append_bounded xs.length xs ys (le_refl _)

theorem gmgInner_snd :
    ∀ (gs seen acc : List Str),
      (gmgInner gs seen acc).2 = acc ++ dedupFS (gs.filter (fun g => g ∉ seen)) := by
  intro gs
  induction gs with
  | nil => intro seen acc; simp [gmgInner, dedupFS]
  | cons g gs' ih =>
    intro seen acc
    by_cases hg : g ∈ seen
    · rw [show gmgInner (g :: gs') seen acc = gmgInner gs' seen acc from by
        simp [gmgInner, hg]]
      rw [ih, show (g :: gs').filter (fun g => g ∉ seen) =
        gs'.filter (fun g => g ∉ seen) from by simp [List.filter_cons, hg]]
    · rw [show gmgInner (g :: gs') seen acc = gmgInner gs' (g :: seen) (acc ++ [g]) from by
        simp [gmgInner, hg]]
      rw [ih]
      rw [show (g :: gs').filter (fun g => g ∉ seen) =
        g :: gs'.filter (fun g => g ∉ seen) from by simp [List.filter_cons, hg]]
      rw [dedupFS]
      have hf : gs'.filter (fun g' => g' ∉ g :: seen) =
          (gs'.filter (fun g' => g' ∉ seen)).filter (fun g' => g' ≠ g) := by
        rw [List.filter_filter]
        refine List.filter_congr ?_
        intro z hz
        by_cases h1 : z = g <;> by_cases h2 : z ∈ seen <;> simp [h1, h2]
      rw [hf]
      simp

theorem gmgInner_fst_mem :
    ∀ (gs seen acc : List Str) (x : Str),
      x ∈ (gmgInner gs seen acc).1 ↔ x ∈ seen ∨ x ∈ gs := by
  intro gs
  induction gs with
  | nil => intro seen acc x; simp [gmgInner]
  | cons g gs' ih =>
    intro seen acc x
    by_cases hg : g ∈ seen
    · rw [show gmgInner (g :: gs') seen acc = gmgInner gs' seen acc from by
        simp [gmgInner, hg]]
      rw [ih]
      constructor
      · rintro (h | h)
        · exact Or.inl h
        · exact Or.inr (List.mem_cons_of_mem _ h)
      · rintro (h | h)
        · exact Or.inl h
        · rcases List.mem_cons.mp h with h | h
          · exact Or.inl (h ▸ hg)
          · exact Or.inr h
    · rw [show gmgInner (g :: gs') seen acc = gmgInner gs' (g :: seen) (acc ++ [g]) from by
        simp [gmgInner, hg]]
      rw [ih]
      constructor
      · rintro (h | h)
        · rcases List.mem_cons.mp h with h | h
          · exact Or.inr (h ▸ List.mem_cons_self _ _)
          · exact Or.inl h
        · exact Or.inr (List.mem_cons_of_mem _ h)
      · rintro (h | h)
        · exact Or.inl (List.mem_cons_of_mem _ h)
        · rcases List.mem_cons.mp h with h | h
          · exact Or.inl (h ▸ List.mem_cons_self _ _)
          · exact Or.inr h

theorem gmgOuter_eq (isDiff : Bool) :
    ∀ (ps : List Pattern) (seen acc : List Str),
      gmgOuter isDiff ps seen acc =
        acc ++ dedupFS ((ps.flatMap (pickGuides isDiff)).filter (fun g => g ∉ seen)) := by
  intro ps
  induction ps with
  | nil => intro seen acc; simp [gmgOuter, dedupFS]
  | cons p ps' ih =>
    intro seen acc
    rw [show gmgOuter isDiff (p :: ps') seen acc =
      gmgOuter isDiff ps' (gmgInner (pickGuides isDiff p) seen acc).1
        (gmgInner (pickGuides isDiff p) seen acc).2 from rfl]
    rw [ih, gmgInner_snd]
    rw [show (p :: ps').flatMap (pickGuides isDiff) =
      pickGuides isDiff p ++ ps'.flatMap (pickGuides isDiff) from by
        simp [List.flatMap_cons]]
    rw [List.filter_append, dedupFS_append, List.append_assoc]
    congr 2
    rw [List.filter_filter]
    refine congrArg dedupFS (List.filter_congr ?_)
    intro z hz
    by_cases h1 : z ∈ seen <;> by_cases h2 : z ∈ pickGuides isDiff p <;>
      simp [h1, h2, List.mem_filter, gmgInner_fst_mem]

/-- Claim C7: `GetMatchedGuides` returns the first-seen-order deduplicated
union of the matched rules' guide lists, each rule contributing its
`diffContext` list when `isDiff` is true and that list is non-empty, else its
`context` list — i.e. it equals `dedupFS` of the concatenation. -/
theorem c7_guides_dedup (ps : List Pattern) (isDiff : Bool) :
    GetMatchedGuides ps isDiff = dedupFS (ps.flatMap (pickGuides isDiff)) := by
  unfold GetMatchedGuides
  rw [gmgOuter_eq]
  rw [show (ps.flatMap (pickGuides isDiff)).filter (fun g => g ∉ ([] : List Str)) =
    ps.flatMap (pickGuides isDiff) from by simp]
  simp

/-- Claim C5 counterexample: a rule that inherits the default `FirstLines`
strategy (empty `contentStrategy`) while carrying a single-value
`contentLines` override `[1]` is sampled with the rule set's default count 2
— the override is ignored because the code only honours it when the rule
sets `content_strategy: first_lines` explicitly — so on "a\nb\nc" the
sampled slice is "a\nb", not the claimed first 1 line "a". -/
theorem c5_counterexample :
    getContentToScan
      { contentDefaults := { strategy := "first_lines".data, lines := 2 }, patterns := [] }
      noRand ("a\nb\nc".data)
      { name := "r".data, filename := [], content := "z".data, contentStrategy := [],
        contentLines := [1], context := [], diffContext := [], stop := false } =
      "a\nb".data ∧ ("a\nb".data : Str) ≠ "a".data :=
  ⟨by decide, by decide⟩

/-- Claim C5 (amended): for a rule whose effective strategy is `FirstLines`,
the sampled slice is the first min(N, totalLines) lines joined by newline,
where N is the rule's single contentLines override value only when the rule
sets `contentStrategy` to `first_lines` explicitly, else the rule set's
default line count; when N ≥ totalLines this equals the whole content
unmodified. -/
theorem c5_amended_first_lines_override (cfg : Config) (intn : Nat → Nat → Nat)
    (content : Str) (p : Pattern)
    (heff : (if p.contentStrategy = [] then cfg.contentDefaults.strategy
             else p.contentStrategy) = "first_lines".data) :
    getContentToScan cfg intn content p =
      joinNl ((split1 '\n' content).take
        (min (if p.contentStrategy = "first_lines".data ∧ p.contentLines ≠ [] then
                p.contentLines.headD 0
              else cfg.contentDefaults.lines)
          ((split1 '\n' content).length : Int)).toNat) ∧
    ((if p.contentStrategy = "first_lines".data ∧ p.contentLines ≠ [] then
        p.contentLines.headD 0
      else cfg.contentDefaults.lines) ≥ ((split1 '\n' content).length : Int) →
      getContentToScan cfg intn content p = content) := by
  set N : Int := if p.contentStrategy = "first_lines".data ∧ p.contentLines ≠ [] then
      p.contentLines.headD 0
    else cfg.contentDefaults.lines with hNdef
  set T : Int := ((split1 '\n' content).length : Int) with hTdef
  have hmain : getContentToScan cfg intn content p = joinNl ((split1 '\n' content).take (min N T).toNat) := by
    unfold getContentToScan
    simp only [heff]
    rw [if_neg (by decide), if_neg (by decide)]
    rw [← hNdef, ← hTdef]
    by_cases hgt : N > T
    · rw [if_pos hgt]
      rw [show min N T = T from by omega]
      rw [hTdef]
      rw [Int.toNat_ofNat, List.take_length, joinNl_split1]
    · rw [if_neg hgt]
      rw [show min N T = N from by omega]
  refine ⟨hmain, fun hge => ?_⟩
  rw [hmain, show min N T = T from by omega, hTdef, Int.toNat_ofNat,
    List.take_length, joinNl_split1]

/-- Claim C5 witness: N = 5 on a 12-line file returns exactly the first five
lines joined by newline, through the amended theorem. -/
theorem c5_witness :
    getContentToScan
      { contentDefaults := { strategy := "first_lines".data, lines := 50 }, patterns := [] }
      noRand ("a\nb\nc\nd\ne\nf\ng\nh\ni\nj\nk\nl".data)
      { name := "r".data, filename := [], content := "z".data,
        contentStrategy := "first_lines".data, contentLines := [5],
        context := [], diffContext := [], stop := false } =
      "a\nb\nc\nd\ne".data := by
  rw [(c5_amended_first_lines_override
    { contentDefaults := { strategy := "first_lines".data, lines := 50 }, patterns := [] }
    noRand ("a\nb\nc\nd\ne\nf\ng\nh\ni\nj\nk\nl".data)
    { name := "r".data, filename := [], content := "z".data,
      contentStrategy := "first_lines".data, contentLines := [5],
      context := [], diffContext := [], stop := false } (by decide)).1]
  decide

theorem rangeMap_getD_take (l : List Str) :
    ∀ (k : Nat), k ≤ l.length →
      (List.range k).map (fun i => l.getD i []) = l.take k := by
  intro k
  induction k with
  | zero => simp
  | succ k ih =>
    intro hk
    rw [List.range_succ, List.map_append, ih (by omega), List.map_cons, List.map_nil]
    rw [List.take_succ]
    have hlt : k < l.length := by omega
    simp [List.getD, List.getElem?_eq_getElem hlt]

theorem rangeMap_getD_drop (l : List Str) (s : Nat) :
    (List.range (l.length - s)).map (fun i => l.getD (s + i) []) = l.drop s := by
  have h1 : (List.range (l.length - s)).map (fun i => (l.drop s).getD i []) =
      (l.drop s).take (l.length - s) := by
    refine rangeMap_getD_take (l.drop s) (l.length - s) (by simp)
  have h2 : (l.drop s).take (l.length - s) = l.drop s := by
    refine List.take_of_length_le (by simp)
  rw [← h2, ← h1]
  refine List.map_congr_left ?_
  intro i hi
  rw [List.mem_range] at hi
  by_cases hs : s ≤ l.length
  · have hik : s + i < l.length := by omega
    have hik2 : i < (l.drop s).length := by simp; omega
    simp [List.getD, List.getElem?_eq_getElem, hik, hik2, List.getElem_drop]
  · omega

/-- Claim C8: for a rule whose effective strategy is Smart with counts
[first, last, random] (the 3-element contentLines override, else
[100,100,100]), the sample is the first min(first, totalLines) lines,
then the lines from index max(totalLines-last, first) to the end, then —
only when totalLines > first+last — `random` draws from the middle index
range [first, totalLines-last); when totalLines ≤ first+last the sample is
exactly the two deterministic blocks. -/
theorem c8_smart_sampling (cfg : Config) (intn : Nat → Nat → Nat) (content : Str)
    (p : Pattern) (f l r : Int)
    (heff : (if p.contentStrategy = [] then cfg.contentDefaults.strategy
             else p.contentStrategy) = "smart".data)
    (hcounts : (match p.contentLines with
                | [a, b, c] => ((a, b, c) : Int × Int × Int)
                | _ => (100, 100, 100)) = (f, l, r))
    (h0f : 0 ≤ f)
    (hintn : ∀ i n, 0 < n → intn i n < n) :
    getContentToScan cfg intn content p =
      joinNl ((split1 '\n' content).take
          (min f ((split1 '\n' content).length : Int)).toNat ++
        (split1 '\n' content).drop
          (max (((split1 '\n' content).length : Int) - l) f).toNat ++
        (if ((split1 '\n' content).length : Int) > f + l then
          (List.range r.toNat).map (fun i => (split1 '\n' content).getD
            (f + ((intn i ((((split1 '\n' content).length : Int) - l) - f).toNat : Nat) : Int)).toNat [])
        else [])) ∧
    (((split1 '\n' content).length : Int) ≤ f + l →
      getContentToScan cfg intn content p =
        joinNl ((split1 '\n' content).take
            (min f ((split1 '\n' content).length : Int)).toNat ++
          (split1 '\n' content).drop
            (max (((split1 '\n' content).length : Int) - l) f).toNat)) ∧
    (((split1 '\n' content).length : Int) > f + l → ∀ i : Nat,
      f ≤ f + ((intn i ((((split1 '\n' content).length : Int) - l) - f).toNat : Nat) : Int) ∧
      f + ((intn i ((((split1 '\n' content).length : Int) - l) - f).toNat : Nat) : Int) <
        ((split1 '\n' content).length : Int) - l) := by
  have hmain : getContentToScan cfg intn content p =
      joinNl ((split1 '\n' content).take
          (min f ((split1 '\n' content).length : Int)).toNat ++
        (split1 '\n' content).drop
          (max (((split1 '\n' content).length : Int) - l) f).toNat ++
        (if ((split1 '\n' content).length : Int) > f + l then
          (List.range r.toNat).map (fun i => (split1 '\n' content).getD
            (f + ((intn i ((((split1 '\n' content).length : Int) - l) - f).toNat : Nat) : Int)).toNat [])
        else [])) := by
    unfold getContentToScan
    simp only [heff]
    rw [if_neg (by decide), if_pos trivial]
    rw [hcounts]
    set lines := split1 '\n' content with hlines
    set T : Int := (lines.length : Int) with hTd
    have hT0 : 0 ≤ T := by positivity
    dsimp only
    have h1 : (List.range (min f T).toNat).map (fun i => lines.getD i []) =
        lines.take (min f T).toNat := by
      refine rangeMap_getD_take lines _ ?_
      have : min f T ≤ T := min_le_right _ _
      omega
    have h2 : (List.range (T - max (T - l) f).toNat).map
          (fun (i : Nat) => lines.getD ((max (T - l) f) + (i : Int)).toNat []) =
        lines.drop (max (T - l) f).toNat := by
      set s : Int := max (T - l) f with hs
      have hs0 : 0 ≤ s := le_trans h0f (le_max_right _ _)
      by_cases hsT : s ≤ T
      · have hk : (T - s).toNat = lines.length - s.toNat := by omega
        rw [hk, ← rangeMap_getD_drop lines s.toNat]
        refine List.map_congr_left ?_
        intro i hi
        congr 1
        omega
      · have hk : (T - s).toNat = 0 := by omega
        rw [hk, List.drop_eq_nil_of_le (by omega)]
        simp
    rw [h1, h2]
    by_cases hTl : T > f + l
    · rw [if_pos hTl, if_pos (by omega : f < T - l), if_pos hTl]
    · rw [if_neg hTl, if_neg hTl]
  refine ⟨hmain, fun hle => ?_, fun hgt i => ?_⟩
  · rw [hmain, if_neg (by omega), List.append_nil]
  · have hn : 0 < ((((split1 '\n' content).length : Int) - l) - f).toNat := by omega
    have := hintn i _ hn
    constructor
    · omega
    · have hcast : (((((split1 '\n' content).length : Int) - l) - f).toNat : Int) =
        (((split1 '\n' content).length : Int) - l) - f := by omega
      omega

/-- Claim C8 witness: Smart with counts [2,2,2] on an 8-line file, with the
deterministic rand oracle drawing index 0 each time: first two lines, last
two lines, then two middle draws of line index 2. -/
theorem c8_witness :
    getContentToScan
      { contentDefaults := { strategy := "first_lines".data, lines := 50 }, patterns := [] }
      noRand ("a\nb\nc\nd\ne\nf\ng\nh".data)
      { name := "r".data, filename := [], content := "z".data,
        contentStrategy := "smart".data, contentLines := [2, 2, 2],
        context := [], diffContext := [], stop := false } =
      "a\nb\ng\nh\nc\nc".data := by
  rw [(c8_smart_sampling
    { contentDefaults := { strategy := "first_lines".data, lines := 50 }, patterns := [] }
    noRand ("a\nb\nc\nd\ne\nf\ng\nh".data)
    { name := "r".data, filename := [], content := "z".data,
      contentStrategy := "smart".data, contentLines := [2, 2, 2],
      context := [], diffContext := [], stop := false }
    2 2 2 (by decide) rfl (by decide) (fun i n h => h)).1]
  decide

theorem fkey_ne_ckey (n1 n2 : Str) : n1 ++ "_filename".data ≠ n2 ++ "_content".data := by
  intro h
  have h2 : ("_filename".data).reverse ++ n1.reverse =
      ("_content".data).reverse ++ n2.reverse := by
    simpa [List.reverse_append] using congrArg List.reverse h
  rw [show ("_filename".data).reverse = 'e' :: "manelif_".data from rfl,
    show ("_content".data).reverse = 't' :: "netnoc_".data from rfl] at h2
  rw [List.cons_append, List.cons_append] at h2
  injection h2 with h2
  exact absurd h2 (by decide)

theorem fkey_inj {p q : Pattern} (h : fkey p = fkey q) : p.name = q.name :=
  (List.append_inj' h rfl).1

theorem ckey_inj {p q : Pattern} (h : ckey p = ckey q) : p.name = q.name :=
  (List.append_inj' h rfl).1

theorem findCache_cons_ne {k key v : Str} {st : Cache} (h : ¬(k = key)) :
    findCache key ((k, v) :: st) = findCache key st := by
  simp [findCache, h]

theorem findCache_cons_self (key v : Str) (st : Cache) :
    findCache key ((key, v) :: st) = some v := by
  simp [findCache]

theorem getRegex_fkey {R : RegexSem} {cfg : Config} {st : Cache} {p : Pattern}
    (hN : (cfg.patterns.map (fun p => p.name)).Nodup)
    (hgood : goodCache cfg st) (hp : p ∈ cfg.patterns)
    (hc : R.compileOk p.filename = true) :
    ∃ st', getRegex R st (fkey p) p.filename = .ok (p.filename, st') ∧ goodCache cfg st' := by
  unfold getRegex
  cases hf : findCache (fkey p) st with
  | some v =>
    rcases (hgood p hp).1 with h | h
    · rw [hf] at h; cases h
    · rw [hf] at h
      injection h with h
      subst h
      exact ⟨st, rfl, hgood⟩
  | none =>
    rw [if_pos hc]
    refine ⟨(fkey p, p.filename) :: st, rfl, ?_⟩
    intro q hq
    refine ⟨?_, ?_⟩
    · by_cases hk : fkey p = fkey q
      · have hqp : q = p := List.inj_on_of_nodup_map hN hq hp (fkey_inj hk.symm)
        rw [hqp]
        right
        rw [findCache_cons_self]
      · rw [findCache_cons_ne hk]
        exact (hgood q hq).1
    · rw [findCache_cons_ne (fun (hh : fkey p = ckey q) => fkey_ne_ckey p.name q.name hh)]
      exact (hgood q hq).2

theorem getRegex_ckey {R : RegexSem} {cfg : Config} {st : Cache} {p : Pattern}
    (hN : (cfg.patterns.map (fun p => p.name)).Nodup)
    (hgood : goodCache cfg st) (hp : p ∈ cfg.patterns)
    (hc : R.compileOk p.content = true) :
    ∃ st', getRegex R st (ckey p) p.content = .ok (p.content, st') ∧ goodCache cfg st' := by
  unfold getRegex
  cases hf : findCache (ckey p) st with
  | some v =>
    rcases (hgood p hp).2 with h | h
    · rw [hf] at h; cases h
    · rw [hf] at h
      injection h with h
      subst h
      exact ⟨st, rfl, hgood⟩
  | none =>
    rw [if_pos hc]
    refine ⟨(ckey p, p.content) :: st, rfl, ?_⟩
    intro q hq
    refine ⟨?_, ?_⟩
    · rw [findCache_cons_ne (fun (hh : ckey p = fkey q) => fkey_ne_ckey q.name p.name hh.symm)]
      exact (hgood q hq).1
    · by_cases hk : ckey p = ckey q
      · have hqp : q = p := List.inj_on_of_nodup_map hN hq hp (ckey_inj hk.symm)
        rw [hqp]
        right
        rw [findCache_cons_self]
      · rw [findCache_cons_ne hk]
        exact (hgood q hq).2

theorem MatchFileAux_spec {R : RegexSem} {cfg : Config} {filename : Str}
    (hN : (cfg.patterns.map (fun p => p.name)).Nodup)
    (hC : ∀ p ∈ cfg.patterns, p.filename ≠ [] → R.compileOk p.filename = true) :
    ∀ (ps : List Pattern), (∀ p ∈ ps, p ∈ cfg.patterns) → ∀ st, goodCache cfg st →
      ∃ st', MatchFileAux R filename ps st =
          .ok (takeStop (fnamePred R filename) ps, st') ∧ goodCache cfg st' := by
  intro ps
  induction ps with
  | nil => intro _ st hg; exact ⟨st, rfl, hg⟩
  | cons p ps' ih =>
    intro hsub st hg
    have hp : p ∈ cfg.patterns := hsub p (List.mem_cons_self _ _)
    have hsub' : ∀ q ∈ ps', q ∈ cfg.patterns :=
      fun q hq => hsub q (List.mem_cons_of_mem _ hq)
    unfold MatchFileAux
    by_cases hf : p.filename = []
    · rw [if_neg (not_not_intro hf)]
      rw [show takeStop (fnamePred R filename) (p :: ps') =
        takeStop (fnamePred R filename) ps' from by
          simp [takeStop, fnamePred, List.isEmpty_iff, hf]]
      exact ih hsub' st hg
    · rw [if_pos hf]
      obtain ⟨st1, hreg, hg1⟩ := getRegex_fkey hN hg hp (hC p hp hf)
      rw [hreg]
      dsimp only
      by_cases hm : R.rmatch p.filename filename = true
      · rw [if_pos hm]
        have htS : takeStop (fnamePred R filename) (p :: ps') =
            if p.stop then [p] else p :: takeStop (fnamePred R filename) ps' := by
          simp [takeStop, fnamePred, List.isEmpty_eq_false.mpr hf, hm]
        by_cases hstop : p.stop = true
        · rw [if_pos hstop]
          exact ⟨st1, by rw [htS, if_pos hstop], hg1⟩
        · rw [if_neg hstop]
          obtain ⟨st2, hrec, hg2⟩ := ih hsub' st1 hg1
          rw [hrec]
          exact ⟨st2, by rw [htS, if_neg hstop], hg2⟩
      · rw [if_neg hm]
        rw [show takeStop (fnamePred R filename) (p :: ps') =
          takeStop (fnamePred R filename) ps' from by
            simp [takeStop, fnamePred, hm]]
        exact ih hsub' st1 hg1

theorem takeStop_cons (f : Pattern → Bool) (p : Pattern) (ps : List Pattern) :
    takeStop f (p :: ps) =
      if f p then (if p.stop then [p] else p :: takeStop f ps) else takeStop f ps := rfl

theorem MatchFileContentAux_spec {R : RegexSem} {cfg : Config} {intn : Nat → Nat → Nat}
    {content : Str} {fnames : List Str}
    (hN : (cfg.patterns.map (fun p => p.name)).Nodup)
    (hCc : ∀ p ∈ cfg.patterns, p.content ≠ [] → R.compileOk p.content = true) :
    ∀ (ps : List Pattern), (∀ p ∈ ps, p ∈ cfg.patterns) → ∀ st, goodCache cfg st →
      ∃ st', MatchFileContentAux R cfg intn content fnames ps st =
          .ok (takeStop (ruleMatchesCode R cfg intn content fnames) ps, st') ∧
        goodCache cfg st' := by
  intro ps
  induction ps with
  | nil => exact fun _ st hg => ⟨st, rfl, hg⟩
  | cons p ps' ih =>
    intro hsub st hg
    have hp : p ∈ cfg.patterns := hsub p (List.mem_cons_self _ _)
    have hsub' : ∀ q ∈ ps', q ∈ cfg.patterns :=
      fun q hq => hsub q (List.mem_cons_of_mem _ hq)
    have hfin : ∀ (st1 : Cache), goodCache cfg st1 → (matched : Bool) →
        ruleMatchesCode R cfg intn content fnames p = matched →
        ∃ st', (if matched then
            if p.stop then Except.ok ([p], st1)
            else
              match MatchFileContentAux R cfg intn content fnames ps' st1 with
              | Except.error e => Except.error e
              | Except.ok (ms, st'') => Except.ok (p :: ms, st'')
          else MatchFileContentAux R cfg intn content fnames ps' st1) =
            .ok (takeStop (ruleMatchesCode R cfg intn content fnames) (p :: ps'), st') ∧
          goodCache cfg st' := by
      intro st1 hg1 matched hrm
      rw [takeStop_cons]
      cases matched with
      | false =>
        rw [if_neg (by simp), hrm]
        rw [if_neg (by simp)]
        exact ih hsub' st1 hg1
      | true =>
        rw [if_pos rfl, hrm, if_pos rfl]
        by_cases hstop : p.stop = true
        · rw [if_pos hstop, if_pos hstop]
          exact ⟨st1, rfl, hg1⟩
        · rw [if_neg hstop, if_neg hstop]
          obtain ⟨st2, hrec, hg2⟩ := ih hsub' st1 hg1
          rw [hrec]
          exact ⟨st2, rfl, hg2⟩
    unfold MatchFileContentAux
    by_cases h1 : p.filename ≠ [] ∧ p.content ≠ []
    · rw [if_pos h1]
      by_cases hin : p.name ∈ fnames
      · rw [if_pos hin]
        obtain ⟨st1, hreg, hg1⟩ := getRegex_ckey hN hg hp (hCc p hp h1.2)
        rw [hreg]
        dsimp only
        refine hfin st1 hg1 _ ?_
        simp [ruleMatchesCode, h1, hin]
      · rw [if_neg hin]
        dsimp only
        refine hfin st hg false ?_
        simp [ruleMatchesCode, h1, hin]
    · rw [if_neg h1]
      by_cases h2 : p.filename ≠ [] ∧ p.content = []
      · rw [if_pos h2]
        dsimp only
        by_cases hin : p.name ∈ fnames
        · rw [show (decide (p.name ∈ fnames)) = true from by simp [hin]]
          refine hfin st hg true ?_
          simp [ruleMatchesCode, h1, h2, hin]
        · rw [show (decide (p.name ∈ fnames)) = false from by simp [hin]]
          refine hfin st hg false ?_
          simp [ruleMatchesCode, h1, h2, hin]
      · rw [if_neg h2]
        by_cases h3 : p.filename = [] ∧ p.content ≠ []
        · rw [if_pos h3]
          obtain ⟨st1, hreg, hg1⟩ := getRegex_ckey hN hg hp (hCc p hp h3.2)
          rw [hreg]
          dsimp only
          refine hfin st1 hg1 _ ?_
          simp [ruleMatchesCode, h1, h2, h3]
        · rw [if_neg h3]
          dsimp only
          refine hfin st hg false ?_
          have hfe : p.filename = [] := by
            by_contra hf
            rcases Classical.em (p.content = []) with hc | hc
            · exact h2 ⟨hf, hc⟩
            · exact h1 ⟨hf, hc⟩
          have hce : p.content = [] := by
            by_contra hc
            exact h3 ⟨hfe, hc⟩
          simp [ruleMatchesCode, hfe, hce]

/-- Claim C2 counterexample: with rules [c2r1 (stop, filename+content),
c2r2 (filename-only)] on filename "a" and content "b", the filename stage
stops at c2r1, whose content then fails; c2r2's filename pattern matches
"a", so the claim's per-rule policy predicts [c2r2], but the code returns []
because c2r2 was never entered into the (stop-truncated) filename-match set. -/
theorem c2_counterexample :
    (MatchFileContent litSem c2cfg noRand ("a".data) ("b".data) []).map (fun r => r.1) =
      .ok [] ∧
    takeStop (ruleMatchesClaim litSem c2cfg noRand ("a".data) ("b".data))
      c2cfg.patterns = [c2r2] ∧
    ([] : List Pattern) ≠ [c2r2] :=
  ⟨by rfl, by decide, by decide⟩

/-- Claim C2 (amended): for a rule set with distinct rule names whose used
patterns all compile, `MatchFileContent` evaluates every rule in order and
returns, in rule-set order with early stop after a matched stop-rule, the
rules matching the per-rule policy in which the filename side of a rule
holds iff the rule's name is among the filename-stage matches computed by
`MatchFile` — including its early stop — rather than by re-testing the
filename pattern directly. -/
theorem c2_amended_match_file_content (R : RegexSem) (cfg : Config)
    (intn : Nat → Nat → Nat) (filename content : Str)
    (hN : (cfg.patterns.map (fun p => p.name)).Nodup)
    (hCf : ∀ p ∈ cfg.patterns, p.filename ≠ [] → R.compileOk p.filename = true)
    (hCc : ∀ p ∈ cfg.patterns, p.content ≠ [] → R.compileOk p.content = true) :
    ∃ st', MatchFileContent R cfg intn filename content [] =
      .ok (takeStop (ruleMatchesCode R cfg intn content
          ((takeStop (fnamePred R filename) cfg.patterns).map (fun p => p.name)))
        cfg.patterns, st') := by
  have hg0 : goodCache cfg [] := fun p _ => ⟨Or.inl rfl, Or.inl rfl⟩
  obtain ⟨st1, hmf, hg1⟩ :=
    MatchFileAux_spec hN hCf cfg.patterns (fun p hp => hp) [] hg0
  unfold MatchFileContent MatchFile
  rw [hmf]
  dsimp only
  obtain ⟨st2, hrec, hg2⟩ :=
    MatchFileContentAux_spec hN hCc cfg.patterns (fun p hp => hp) st1 hg1
  rw [hrec]
  exact ⟨st2, rfl⟩

/-- Claim C2 witness: the spec's order-sensitivity example — with the stop
rule second, both rules match and appear in rule-set order. -/
theorem c2_witness :
    ∃ st', MatchFileContent litSem
        { contentDefaults := exDefaults, patterns := [c2r2, c2r1] }
        noRand ("za".data) ("z".data) [] =
      .ok (takeStop (ruleMatchesCode litSem
          { contentDefaults := exDefaults, patterns := [c2r2, c2r1] }
          noRand ("z".data)
          ((takeStop (fnamePred litSem ("za".data))
            [c2r2, c2r1]).map (fun p => p.name)))
        [c2r2, c2r1], st') := by
  exact c2_amended_match_file_content litSem
    { contentDefaults := exDefaults, patterns := [c2r2, c2r1] }
    noRand ("za".data) ("z".data) (by decide)
    (fun p hp _ => rfl) (fun p hp _ => rfl)

/-- Claim C10 counterexample: rules [r3 (name "n", filename "x", content
"c1"), r4 (name "n", content-only "[")] on a file whose name does not match
"x".  r3's content pattern is never compiled (its rule is skipped because
its filename side did not match), so r4's content-only branch misses the
shared "n_content" cache key and compiles r4's OWN pattern — refuting "the
later rule's own pattern string is never compiled": with the invalid
pattern "[" the compile error IS reported, and with the valid pattern "q"
(rule r5) the later rule's own pattern is cached under the shared key and
decides its match. -/
theorem c10_counterexample :
    MatchFileContent litSemBad c10cfgBad noRand ("y".data) ("q".data) [] =
      .error ("[".data) ∧
    MatchFileContent litSem c10cfgQ noRand ("y".data) ("q".data) [] =
      .ok ([c10r5], [(ckey c10r5, "q".data), (fkey c10r3, "x".data)]) := by
  exact ⟨rfl, rfl⟩

/-- Claim C10 (amended): when two rules share a name and a pattern kind, the
shared cache key (name + kind) makes whichever same-kind compilation happens
first decide all later lookups.  When the first rule's pattern of that kind
is compiled first — always, for the filename kind, since `MatchFile` visits
every rule in order; and for the content kind whenever the first rule's
content branch runs, e.g. when both rules are content-only — only the first
rule's pattern string is compiled and cached, the later rule's match is
decided by the first rule's regex, and an invalid pattern string in the
later rule is never compiled or reported.  (When the first same-named
rule's content branch is skipped, the later rule's own pattern is compiled
under the shared key instead — see the counterexample.)  Part one covers
the filename kind via `MatchFile`'s rule loop, part two the content kind
via `MatchFileContent` on a two-rule set. -/
theorem c10_duplicate_name_cache :
    (∀ (R : RegexSem) (fname : Str) (r1 r2 : Pattern),
      r1.name = r2.name → r1.filename ≠ [] → r2.filename ≠ [] →
      R.compileOk r1.filename = true →
      MatchFileAux R fname [r1, r2] [] =
        .ok ((if R.rmatch r1.filename fname then
                (if r1.stop then [r1] else [r1, r2])
              else []),
             [(fkey r1, r1.filename)])) ∧
    (∀ (R : RegexSem) (intn : Nat → Nat → Nat) (fname content : Str)
        (defaults : ContentDefaults) (r1 r2 : Pattern),
      r1.name = r2.name → r1.filename = [] → r2.filename = [] →
      r1.content ≠ [] → r2.content ≠ [] → r1.stop = false →
      R.compileOk r1.content = true →
      MatchFileContent R { contentDefaults := defaults, patterns := [r1, r2] }
          intn fname content [] =
        .ok ((if R.rmatch r1.content (getContentToScan
                  { contentDefaults := defaults, patterns := [r1, r2] } intn content r1)
              then [r1] else []) ++
             (if R.rmatch r1.content (getContentToScan
                  { contentDefaults := defaults, patterns := [r1, r2] } intn content r2)
              then [r2] else []),
             [(ckey r1, r1.content)])) := by
  constructor
  · intro R fname r1 r2 hname hf1 hf2 hc1
    have hkey : fkey r2 = fkey r1 := by unfold fkey; rw [hname]
    have haux2 : MatchFileAux R fname [r2] [(fkey r1, r1.filename)] =
        if R.rmatch r1.filename fname then
          (if r2.stop then .ok ([r2], [(fkey r1, r1.filename)])
           else .ok ([r2], [(fkey r1, r1.filename)]))
        else .ok ([], [(fkey r1, r1.filename)]) := by
      unfold MatchFileAux
      rw [if_pos hf2]
      unfold getRegex
      rw [hkey, findCache_cons_self]
      dsimp only
      by_cases hm : R.rmatch r1.filename fname = true
      · rw [if_pos hm, if_pos hm]
        by_cases hs2 : r2.stop = true
        · rw [if_pos hs2, if_pos hs2]
        · rw [if_neg hs2, if_neg hs2]
          rfl
      · rw [if_neg hm, if_neg hm]
        rfl
    unfold MatchFileAux
    rw [if_pos hf1]
    unfold getRegex
    rw [show findCache (fkey r1) ([] : Cache) = none from rfl]
    dsimp only
    rw [if_pos hc1]
    dsimp only
    by_cases hm : R.rmatch r1.filename fname = true
    · rw [if_pos hm, if_pos hm]
      by_cases hs1 : r1.stop = true
      · rw [if_pos hs1, if_pos hs1]
      · rw [if_neg hs1, if_neg hs1, haux2, if_pos hm]
        by_cases hs2 : r2.stop = true
        · rw [if_pos hs2]
        · rw [if_neg hs2]
    · rw [if_neg hm, if_neg hm, haux2, if_neg hm]
  · intro R intn fname content defaults r1 r2 hname hf1 hf2 hc1 hc2 hs1 hok
    have hkey : ckey r2 = ckey r1 := by unfold ckey; rw [hname]
    have hmf : MatchFileAux R fname [r1, r2] [] = .ok ([], []) := by
      unfold MatchFileAux
      rw [if_neg (not_not_intro hf1)]
      unfold MatchFileAux
      rw [if_neg (not_not_intro hf2)]
      rfl
    set cfg : Config := { contentDefaults := defaults, patterns := [r1, r2] } with hcfg
    have haux2 : ∀ (ms : List Str), MatchFileContentAux R cfg intn content ms [r2]
        [(ckey r1, r1.content)] =
        if R.rmatch r1.content (getContentToScan cfg intn content r2) then
          .ok ([r2], [(ckey r1, r1.content)])
        else .ok ([], [(ckey r1, r1.content)]) := by
      intro ms
      unfold MatchFileContentAux
      rw [if_neg (fun hh => (not_not_intro hf2) hh.1)]
      rw [if_neg (fun hh => (not_not_intro hf2) hh.1)]
      rw [if_pos ⟨hf2, hc2⟩]
      unfold getRegex
      rw [hkey, findCache_cons_self]
      dsimp only
      by_cases hm2 : R.rmatch r1.content (getContentToScan cfg intn content r2) = true
      · rw [if_pos hm2, if_pos hm2]
        by_cases hs2 : r2.stop = true
        · rw [if_pos hs2]
        · rw [if_neg hs2]
          rfl
      · rw [if_neg hm2, if_neg hm2]
        rfl
    unfold MatchFileContent MatchFile
    rw [show cfg.patterns = [r1, r2] from rfl, hmf]
    dsimp only
    unfold MatchFileContentAux
    rw [if_neg (fun hh => (not_not_intro hf1) hh.1)]
    rw [if_neg (fun hh => (not_not_intro hf1) hh.1)]
    rw [if_pos ⟨hf1, hc1⟩]
    unfold getRegex
    rw [show findCache (ckey r1) ([] : Cache) = none from rfl]
    dsimp only
    rw [if_pos hok]
    dsimp only
    by_cases hm1 : R.rmatch r1.content (getContentToScan cfg intn content r1) = true
    · rw [if_pos hm1, if_pos hm1]
      rw [if_neg (show ¬(r1.stop = true) from by simp [hs1])]
      rw [haux2]
      by_cases hm2 : R.rmatch r1.content (getContentToScan cfg intn content r2) = true
      · rw [if_pos hm2, if_pos hm2]
        rfl
      · rw [if_neg hm2, if_neg hm2]
        rfl
    · rw [if_neg hm1, if_neg hm1]
      rw [haux2]
      by_cases hm2 : R.rmatch r1.content (getContentToScan cfg intn content r2) = true
      · rw [if_pos hm2, if_pos hm2]
        rfl
      · rw [if_neg hm2, if_neg hm2]
        rfl

/-- Claim C10 witness: two rules named "n", the second carrying the invalid
regex "[" (which `litSemBad` refuses to compile); matching succeeds, both
rules match via the first rule's pattern "a", and only that pattern is
cached — the invalid later pattern is never compiled or reported. -/
theorem c10_witness :
    MatchFileAux litSemBad ("xa".data) [c10r1, c10r2] [] =
      .ok ([c10r1, c10r2], [(fkey c10r1, "a".data)]) ∧
    litSemBad.compileOk ("[".data) = false := by
  constructor
  · rw [c10_duplicate_name_cache.1 litSemBad ("xa".data) c10r1 c10r2 rfl
      (by decide) (by decide) (by decide)]
    rfl
  · decide

/-- Claim C1 counterexample: a rule set whose single rule has both a
filename and a content pattern but which contains no content-only rule.
The filename matches and carries a content pattern, so the claim says the
resolver reads the file ("b") and returns the filename+content matches'
guides — none, since "z" does not occur in "b" — but the code returns the
filename-only guides ["g"] without reading, because `hasContentPatterns`
looks for content-only rules. -/
theorem c1_counterexample :
    GetGuides litSem c1cfg noRand (fun _ => some ("b".data)) ("a".data) =
      .ok ["g".data] ∧
    GetGuidesClaim litSem c1cfg noRand (fun _ => some ("b".data)) ("a".data) =
      .ok [] ∧
    (["g".data] : List Str) ≠ [] :=
  ⟨by rfl, by rfl, by decide⟩

/-- Claim C1 (amended): full-file guide resolution reads content only when
the rule set contains a content-only rule (`hasContentPatterns`).  With the
filename stage giving `fm`: (a) when there is no content-only rule the
result is the filename-only matches' guides for every file system — no read
occurs; (b) when there are filename matches none of which carries a content
pattern, the result is their guides immediately; (c) otherwise, when a
content-only rule exists, the resolver reads the file and returns the
filename+content matching's guides (or surfaces its error). -/
theorem c1_amended_content_read_condition (R : RegexSem) (cfg : Config)
    (intn : Nat → Nat → Nat) (fs : Str → Option Str) (filename : Str)
    (fm : List Pattern) (st1 : Cache)
    (hmf : MatchFile R cfg filename [] = .ok (fm, st1)) :
    (hasContentPatterns cfg = false →
      GetGuides R cfg intn fs filename = .ok (GetMatchedGuides fm false)) ∧
    (fm.length > 0 → needsContentScan fm = false →
      GetGuides R cfg intn fs filename = .ok (GetMatchedGuides fm false)) ∧
    (hasContentPatterns cfg = true →
      ¬(fm.length > 0 ∧ ¬(needsContentScan fm = true)) →
      ∀ content, fs filename = some content →
        (∀ cm st2, MatchFileContent R cfg intn filename content st1 = .ok (cm, st2) →
          GetGuides R cfg intn fs filename = .ok (GetMatchedGuides cm false)) ∧
        (∀ e, MatchFileContent R cfg intn filename content st1 = .error e →
          GetGuides R cfg intn fs filename = .error (.pattern e))) := by
  refine ⟨?_, ?_, ?_⟩
  · intro hcp
    unfold GetGuides
    rw [hmf]
    dsimp only
    by_cases he : fm.length > 0 ∧ ¬(needsContentScan fm = true)
    · rw [if_pos he]
    · rw [if_neg he, if_neg (by rw [hcp]; exact Bool.false_ne_true)]
  · intro hb1 hb2
    unfold GetGuides
    rw [hmf]
    dsimp only
    rw [if_pos ⟨hb1, by rw [hb2]; exact Bool.false_ne_true⟩]
  · intro hcp hne content hfs
    unfold GetGuides
    rw [hmf]
    dsimp only
    rw [if_neg hne, if_pos hcp, hfs]
    dsimp only
    constructor
    · intro cm st2 hmc
      rw [hmc]
    · intro e hmc
      rw [hmc]

/-- Claim C1 witness: on the counterexample rule set (no content-only rule)
the resolver returns the filename-only guides with a file system that would
fail every read — so no content read can have occurred. -/
theorem c1_witness :
    GetGuides litSem c1cfg noRand (fun _ => none) ("a".data) =
      .ok (GetMatchedGuides [c1r] false) :=
  (c1_amended_content_read_condition litSem c1cfg noRand (fun _ => none) ("a".data)
    [c1r] [(fkey c1r, "a".data)] (by rfl)).1 (by decide)

/-- Claim C9: when the content read performed during full-file guide
resolution fails (the read is reached: a content-only rule exists and the
early filename-only return did not fire), `GetGuides` returns the guides of
the already-computed filename-only matches when that list is non-empty —
identical to filename-only resolution — and propagates the read error
exactly when it is empty. -/
theorem c9_read_failure_degrade (R : RegexSem) (cfg : Config)
    (intn : Nat → Nat → Nat) (fs : Str → Option Str) (filename : Str)
    (fm : List Pattern) (st1 : Cache)
    (hmf : MatchFile R cfg filename [] = .ok (fm, st1))
    (hcp : hasContentPatterns cfg = true)
    (hreach : ¬(fm.length > 0 ∧ ¬(needsContentScan fm = true)))
    (hfs : fs filename = none) :
    (fm ≠ [] → GetGuides R cfg intn fs filename = .ok (GetMatchedGuides fm false)) ∧
    (fm = [] → GetGuides R cfg intn fs filename = .error RErr.read) := by
  unfold GetGuides
  rw [hmf]
  dsimp only
  rw [if_neg hreach, if_pos hcp, hfs]
  dsimp only
  constructor
  · intro hne
    rw [if_pos (by cases fm with
      | nil => exact absurd rfl hne
      | cons a l => simp)]
  · intro he
    subst he
    rw [if_neg (by simp)]

/-- Claim C9 witness: rule set with a both-pattern rule and a content-only
rule; the filename stage matches the first rule, the read fails, and the
resolver degrades to the filename-only guides. -/
theorem c9_witness :
    GetGuides litSem c9cfg noRand (fun _ => none) ("a".data) =
      .ok (GetMatchedGuides [c1r] false) :=
  (c9_read_failure_degrade litSem c9cfg noRand (fun _ => none) ("a".data)
    [c1r] [(fkey c1r, "a".data)] (by rfl) (by decide) (by decide) rfl).1 (by decide)
